import Mathlib

/-!
Verification of the Conduit core against its specification.

The development shallowly embeds the TypeScript sources of the repository:
JavaScript strings are modelled as `List Char` (sequences of Unicode
scalars), fallible operations return `Option` or `Except`, and the
stateful components (permission engine, session manager) are modelled as
explicit state-passing functions.  Every definition is translated from the
corresponding source function; the few places where a JavaScript runtime
builtin (JSON.parse, RegExp) is modelled rather than repository code are
called out in the doc comments.
-/

namespace Conduit

/-! ## JavaScript string primitives over `List Char` -/

/-- Whitespace for the purposes of `String.prototype.trim`: the ASCII
whitespace characters plus NBSP and the BOM (the common cases of the
WhiteSpace / LineTerminator productions). -/
def jsWhitespace (c : Char) : Bool :=
  c = ' ' || c = '\t' || c = '\n' || c = '\r' ||
    c = '\x0b' || c = '\x0c' || c = '\u00a0' || c = '\ufeff' 

/-- Model of `s.trim()`: drop whitespace from both ends. -/
def trimChars (s : List Char) : List Char :=
  ((s.dropWhile jsWhitespace).reverse.dropWhile jsWhitespace).reverse

/-- Model of `s.split("\n")`: JavaScript split never returns an empty
array, and a trailing separator contributes a final empty piece. -/
def splitNl : List Char → List (List Char)
  | [] => [[]]
  | c :: r =>
    if c = '\n' then [] :: splitNl r
    else
      match splitNl r with
      | [] => [[c]]
      | l :: ls => (c :: l) :: ls

/-- The characters of `s` before the first occurrence of `c`
(`s.split(c)[0]`). -/
def beforeFirst (c : Char) (s : List Char) : List Char :=
  s.takeWhile (fun x => x != c)

/-- The characters of `s` after the first occurrence of `c` (everything,
not just up to the next separator). -/
def afterFirst (c : Char) (s : List Char) : List Char :=
  (s.dropWhile (fun x => x != c)).drop 1

/-! ## JSON values and `JSON.stringify`

`Json` models the JSON value space the repository exchanges over NDJSON.
Numbers are modelled as integers: the protocol counters the core reads are
integral, and integral doubles print in decimal, which is the regime the
serializer models. -/

inductive Json where
  | null
  | bool (b : Bool)
  | num (n : Int)
  | str (s : String)
  | arr (elems : List Json)
  | obj (fields : List (String × Json))

/-- Decimal digit character for a value below ten. -/
def digitChar : Nat → Char
  | 0 => '0' | 1 => '1' | 2 => '2' | 3 => '3' | 4 => '4'
  | 5 => '5' | 6 => '6' | 7 => '7' | 8 => '8' | _ => '9'

/-- Lowercase hexadecimal digit character for a value below sixteen. -/
def hexChar : Nat → Char
  | 0 => '0' | 1 => '1' | 2 => '2' | 3 => '3' | 4 => '4'
  | 5 => '5' | 6 => '6' | 7 => '7' | 8 => '8' | 9 => '9'
  | 10 => 'a' | 11 => 'b' | 12 => 'c' | 13 => 'd' | 14 => 'e' | _ => 'f'

/-- Decimal digits of a natural number, most significant first; the first
argument is recursion fuel (any amount strictly above the number works). -/
def natToCharsF : Nat → Nat → List Char
  | 0, _ => []
  | fuel + 1, n =>
    if n < 10 then [digitChar n]
    else natToCharsF fuel (n / 10) ++ [digitChar (n % 10)]

/-- Decimal digits of a natural number, most significant first. -/
def natToChars (n : Nat) : List Char :=
  natToCharsF (n + 1) n

/-- Decimal representation of an integer, as `JSON.stringify` prints an
integral number. -/
def intToChars (n : Int) : List Char :=
  if n < 0 then '-' :: natToChars n.natAbs else natToChars n.natAbs

/-- The escape `JSON.stringify` applies to one character of a string:
quote, backslash and the named control characters get two-character
escapes, the remaining control characters get `\u00xx`, everything else
is emitted verbatim. -/
def escChar (c : Char) : List Char :=
  if c = '"' then ['\\', '"']
  else if c = '\\' then ['\\', '\\']
  else if c = '\n' then ['\\', 'n']
  else if c = '\r' then ['\\', 'r']
  else if c = '\t' then ['\\', 't']
  else if c = '\x08' then ['\\', 'b']
  else if c = '\x0c' then ['\\', 'f']
  else if c.toNat < 32 then
    ['\\', 'u', '0', '0', hexChar (c.toNat / 16), hexChar (c.toNat % 16)]
  else [c]

/-- String-body escaping of `JSON.stringify` (without the surrounding
quotes). -/
def escChars : List Char → List Char
  | [] => []
  | c :: r => escChar c ++ escChars r

/-- Model of `JSON.stringify` on `Json` values: compact output, fields in
insertion order, no whitespace. -/
def jsonStringify : Json → List Char
  | .null => "null".data
  | .bool true => "true".data
  | .bool false => "false".data
  | .num n => intToChars n
  | .str s => '"' :: escChars s.data ++ ['"']
  | .arr xs => '[' :: strItems xs ++ [']']
  | .obj fs => '{' :: strFields fs ++ ['}']
where
  strItems : List Json → List Char
    | [] => []
    | [v] => jsonStringify v
    | v :: vs => jsonStringify v ++ ',' :: strItems vs
  strFields : List (String × Json) → List Char
    | [] => []
    | [(k, v)] => '"' :: escChars k.data ++ '"' :: ':' :: jsonStringify v
    | (k, v) :: fs =>
      ('"' :: escChars k.data ++ '"' :: ':' :: jsonStringify v) ++ ',' :: strFields fs

/-! ## A model of `JSON.parse`

The source hands each complete NDJSON line to the runtime builtin
`JSON.parse`.  The builtin is modelled by a recursive-descent reader of
the whitespace-free JSON fragment the serializer above emits (the only
inputs the round-trip theorems evaluate it on); on texts outside that
fragment it may be more permissive than the builtin, which only makes
the malformed-line path of the parser easier to hit, never the
successful path harder. -/

/-- Numeric value of a hexadecimal digit character. -/
def hexVal (c : Char) : Option Nat :=
  if '0' ≤ c ∧ c ≤ '9' then some (c.toNat - 48)
  else if 'a' ≤ c ∧ c ≤ 'f' then some (c.toNat - 87)
  else if 'A' ≤ c ∧ c ≤ 'F' then some (c.toNat - 55)
  else none

/-- Read a JSON string body after the opening quote: unescape up to the
closing quote, returning the decoded characters and the remainder. -/
def parseStringBody : List Char → Option (List Char × List Char)
  | [] => none
  | c :: r =>
    if c = '"' then some ([], r)
    else if c = '\\' then
      match r with
      | [] => none
      | e :: r2 =>
        if e = '"' then (parseStringBody r2).map fun p => ('"' :: p.1, p.2)
        else if e = '\\' then (parseStringBody r2).map fun p => ('\\' :: p.1, p.2)
        else if e = '/' then (parseStringBody r2).map fun p => ('/' :: p.1, p.2)
        else if e = 'n' then (parseStringBody r2).map fun p => ('\n' :: p.1, p.2)
        else if e = 't' then (parseStringBody r2).map fun p => ('\t' :: p.1, p.2)
        else if e = 'r' then (parseStringBody r2).map fun p => ('\r' :: p.1, p.2)
        else if e = 'b' then (parseStringBody r2).map fun p => ('\x08' :: p.1, p.2)
        else if e = 'f' then (parseStringBody r2).map fun p => ('\x0c' :: p.1, p.2)
        else if e = 'u' then
          match r2 with
          | h1 :: h2 :: h3 :: h4 :: r3 =>
            match hexVal h1, hexVal h2, hexVal h3, hexVal h4 with
            | some a, some b, some c2, some d =>
              (parseStringBody r3).map fun p =>
                (Char.ofNat (a * 4096 + b * 256 + c2 * 16 + d) :: p.1, p.2)
            | _, _, _, _ => none
          | _ => none
        else none
    else (parseStringBody r).map fun p => (c :: p.1, p.2)

/-- Value of a list of decimal digit characters, most significant first. -/
def digitsToNat (ds : List Char) : Nat :=
  ds.foldl (fun a c => a * 10 + (c.toNat - 48)) 0

/-- Strip an expected literal text off the input. -/
def expectChars : List Char → List Char → Option (List Char)
  | [], s => some s
  | e :: es, c :: s => if c = e then expectChars es s else none
  | _ :: _, [] => none

/-- Comma-separated array elements after `[`, value parsing delegated to
`pv`; the fuel bounds the number of elements. -/
def itemsLoop (pv : List Char → Option (Json × List Char)) :
    Nat → List Char → Option (List Json × List Char)
  | 0, _ => none
  | fuel + 1, s =>
    match pv s with
    | none => none
    | some (v, r) =>
      match r with
      | ']' :: r2 => some ([v], r2)
      | ',' :: r2 =>
        match itemsLoop pv fuel r2 with
        | none => none
        | some (vs, r3) => some (v :: vs, r3)
      | _ => none

/-- Comma-separated object members after `{`, value parsing delegated to
`pv`; the fuel bounds the number of members. -/
def fieldsLoop (pv : List Char → Option (Json × List Char)) :
    Nat → List Char → Option (List (String × Json) × List Char)
  | 0, _ => none
  | fuel + 1, s =>
    match s with
    | '"' :: r =>
      match parseStringBody r with
      | none => none
      | some (kcs, r1) =>
        match r1 with
        | ':' :: r2 =>
          match pv r2 with
          | none => none
          | some (v, r3) =>
            match r3 with
            | '}' :: r4 => some ([(String.mk kcs, v)], r4)
            | ',' :: r4 =>
              match fieldsLoop pv fuel r4 with
              | none => none
              | some (kvs, r5) => some ((String.mk kcs, v) :: kvs, r5)
            | _ => none
        | _ => none
    | _ => none

/-- Read one JSON value off the front of the input.  The fuel bounds the
nesting depth and element counts; `jsonParse` supplies enough for any
input. -/
def parseJsonVal : Nat → List Char → Option (Json × List Char)
  | 0, _ => none
  | fuel + 1, s =>
    match s with
    | [] => none
    | c :: r =>
      if c = 'n' then (expectChars ['u', 'l', 'l'] r).map fun r2 => (.null, r2)
      else if c = 't' then (expectChars ['r', 'u', 'e'] r).map fun r2 => (.bool true, r2)
      else if c = 'f' then (expectChars ['a', 'l', 's', 'e'] r).map fun r2 => (.bool false, r2)
      else if c = '"' then (parseStringBody r).map fun p => (.str (String.mk p.1), p.2)
      else if c = '[' then
        if r.head? = some ']' then some (.arr [], r.tail)
        else (itemsLoop (parseJsonVal fuel) fuel r).map fun p => (.arr p.1, p.2)
      else if c = '{' then
        if r.head? = some '}' then some (.obj [], r.tail)
        else (fieldsLoop (parseJsonVal fuel) fuel r).map fun p => (.obj p.1, p.2)
      else if c = '-' then
        match r.takeWhile Char.isDigit with
        | [] => none
        | ds => some (.num (-(digitsToNat ds : Int)), r.dropWhile Char.isDigit)
      else if c.isDigit then
        some (.num (digitsToNat ((c :: r).takeWhile Char.isDigit)),
          (c :: r).dropWhile Char.isDigit)
      else none

/-- Model of `JSON.parse` on a complete text: one value consuming the
whole input. -/
def jsonParse (s : List Char) : Option Json :=
  match parseJsonVal (s.length + 1) s with
  | some (v, []) => some v
  | _ => none

/-! ## NDJSON framing (`src/bridge/ndjson.ts`) -/

/-- Model of `serializeNdjson`: the JSON text of the value followed by a
single newline. -/
def serializeNdjson (v : Json) : List Char :=
  jsonStringify v ++ ['\n']

/-- State of an `NdjsonParser` together with the values its callback has
received, in order. -/
structure NdjsonState where
  buffer : List Char
  emitted : List Json

/-- What one complete line contributes: `feed` trims it, skips it when
blank, hands it to `JSON.parse`, and silently drops it when the parse
fails. -/
def processLine (line : List Char) : Option Json :=
  let t := trimChars line
  if t.isEmpty then none else jsonParse t

/-- Model of `NdjsonParser.feed`: append the chunk to the buffer, split on
newlines, process every complete line and retain the final partial line. -/
def ndjsonFeed (st : NdjsonState) (chunk : List Char) : NdjsonState :=
  let parts := splitNl (st.buffer ++ chunk)
  ⟨parts.getLastD [], st.emitted ++ parts.dropLast.filterMap processLine⟩

/-- Feed a sequence of chunks in order. -/
def ndjsonFeedAll (st : NdjsonState) (chunks : List (List Char)) : NdjsonState :=
  chunks.foldl ndjsonFeed st

/-! ## The glob matcher (`matchGlob`, `src/core/permission-engine.ts`)

`matchGlob` builds a JavaScript regular expression
`"^" ++ escaped ++ "$"` where `escaped` is the pattern with every
character of the class `[.+^${}()|[\]\\]` backslash-escaped and every
`*` replaced by `.*`.  The question mark is not in that class, so a `?`
in the pattern survives as a regex quantifier.  The construction and the
anchored test of that regular expression are modelled below: literal
atoms, `.*` atoms (whose dot excludes line terminators, as in an
un-flagged JavaScript regex), and `?` acting on the preceding atom — a
`?` with no quantifiable atom before it makes the `RegExp` constructor
throw a SyntaxError, modelled as `none`. -/

/-- The character class the source escapes:
`pattern.replace(/[.+^${}()|[\]\\]/g, "\\$&")`. -/
def regexEscapeClass : List Char :=
  ['.', '+', '^', '$', '{', '}', '(', ')', '|', '[', ']', '\\']

/-- One atom of the compiled pattern: a literal character, `.*`, or an
optional literal character (a literal followed by `?`). -/
inductive GAtom where
  | lit (c : Char)
  | star
  | optLit (c : Char)

/-- Compile the body of the generated regex into atoms, reading the
original pattern (escaping a character does not change the atom it
yields, so the escape pass needs no separate model).  `acc` holds the
atoms in reverse; `mode` records what a following `?` may attach to:
`1` after a bare literal, `2` directly after a quantified atom (where a
second `?` is the lazy marker, changing nothing about the accepted
language), `0` elsewhere (where `?` is a SyntaxError: nothing to
repeat). -/
def globCompile : List Char → List GAtom → Nat → Option (List GAtom)
  | [], acc, _ => some acc.reverse
  | c :: rest, acc, mode =>
    if c = '*' then globCompile rest (.star :: acc) 2
    else if c = '?' then
      if mode = 1 then
        match acc with
        | .lit l :: acc2 => globCompile rest (.optLit l :: acc2) 2
        | _ => none
      else if mode = 2 then globCompile rest acc 0
      else none
    else globCompile rest (.lit c :: acc) 1

/-- Whether `.` of an un-flagged JavaScript regex matches the character:
everything except the four line terminators. -/
def dotMatches (c : Char) : Bool :=
  !(c = '\n' || c = '\r' || c.toNat = 0x2028 || c.toNat = 0x2029)

/-- Backtracking full match of an atom list against a character list;
the fuel only bounds the recursion and `regexFullMatch` always supplies
enough. -/
def gmatchF : Nat → List GAtom → List Char → Bool
  | 0, _, _ => false
  | fuel + 1, ts, s =>
    match ts with
    | [] => s.isEmpty
    | .lit c :: ts2 =>
      match s with
      | [] => false
      | x :: xs => c = x && gmatchF fuel ts2 xs
    | .optLit c :: ts2 =>
      gmatchF fuel ts2 s ||
        (match s with
         | [] => false
         | x :: xs => c = x && gmatchF fuel ts2 xs)
    | .star :: ts2 =>
      gmatchF fuel ts2 s ||
        (match s with
         | [] => false
         | x :: xs => dotMatches x && gmatchF fuel (.star :: ts2) xs)

/-- Anchored test `regex.test(value)` of the compiled atoms. -/
def regexFullMatch (atoms : List GAtom) (value : List Char) : Bool :=
  gmatchF (atoms.length + value.length + 1) atoms value

/-- The regex branch of `matchGlob`: escape, convert to an anchored
regex and test.  `none` models the `RegExp` constructor throwing. -/
def globRegexMatch (pattern value : List Char) : Option Bool :=
  (globCompile pattern [] 0).map fun atoms => regexFullMatch atoms value

/-- The second element of `pattern.split(":", 2)`: the characters
between the first colon and the next colon or the end.  (JavaScript
split with a limit truncates the pieces; it does not keep the remainder
in the last piece.) -/
def splitColonSecond (s : List Char) : List Char :=
  beforeFirst ':' (afterFirst ':' s)

/-- Model of `matchGlob(pattern, value)`.  The prefix special case fires
when the pattern contains a colon and `pattern.split(":", 2)[1]` is
exactly `*`; it then tests `value.startsWith(prefix)`.  Otherwise the
pattern is escaped and tested as an anchored regex. -/
def matchGlob (pattern value : List Char) : Option Bool :=
  if pattern.contains ':' then
    if splitColonSecond pattern = ['*'] then
      some (List.isPrefixOf (beforeFirst ':' pattern) value)
    else globRegexMatch pattern value
  else globRegexMatch pattern value

/-! ## The permission engine (`src/core/permission-engine.ts`) -/

/-- A row of the `permission_rules` table.  `project_id = none` is a
global rule. -/
structure PermissionRule where
  id : String
  project_id : Option String
  tool_name : String
  rule_content : String
  behavior : String
  priority : Int
  created_at : String

/-- A row of the append-only `permission_log` table.  The generated UUID
primary key and `decided_at` timestamp carry no information the claims
touch and are not modelled. -/
structure PermissionLogEntry where
  session_id : String
  request_id : String
  tool_name : String
  tool_input : List Char
  decision : String
  decision_source : String
  rule_id : Option String
  decided_by : String

/-- The store the engine reads and writes, together with a flag that
models the embedded database throwing on access (the "rule-store read
error" of the specification's error-handling section). -/
structure RuleDb where
  rules : List PermissionRule
  auditLog : List PermissionLogEntry
  dbFails : Bool

/-- An exception escaping the engine: the database throwing, or the
`RegExp` constructor throwing on a malformed generated pattern. -/
inductive EvalErr where
  | dbError
  | regexSyntaxError

/-- A tool-use request's input object: fields in insertion order with
JSON values (`Record<string, unknown>`). -/
def ToolInput := List (String × Json)

/-- JavaScript truthiness of a JSON value. -/
def jsTruthy : Json → Bool
  | .null => false
  | .bool b => b
  | .num n => n != 0
  | .str s => !s.isEmpty
  | .arr _ => true
  | .obj _ => true

/-- Model of `String(x)` on a JSON value: strings pass through, numbers
print in decimal, arrays join their element strings with commas (null
elements contributing nothing), objects print the generic tag. -/
def jsToChars : Json → List Char
  | .null => "null".data
  | .bool true => "true".data
  | .bool false => "false".data
  | .num n => intToChars n
  | .str s => s.data
  | .arr xs => arrJoin xs
  | .obj _ => "[object Object]".data
where
  arrJoin : List Json → List Char
    | [] => []
    | [v] =>
      match v with
      | .null => []
      | v2 => jsToChars v2
    | v :: vs =>
      (match v with
       | .null => []
       | v2 => jsToChars v2) ++ ',' :: arrJoin vs

/-- Truthiness of `input.k` (an absent property is `undefined`, hence
falsy). -/
def truthyField (input : ToolInput) (k : String) : Bool :=
  match List.lookup k input with
  | none => false
  | some v => jsTruthy v

/-- The value of `input.k`, only consulted under `truthyField`. -/
def getField (input : ToolInput) (k : String) : Json :=
  (List.lookup k input).getD .null

/-- Model of `matchesRule`: wildcard-or-exact tool name, empty pattern
matches everything, Bash matches against `command`, the file tools
against `file_path`, and anything else against the JSON serialization of
the whole input. -/
def matchesRule (rule : PermissionRule) (toolName : String) (input : ToolInput) :
    Option Bool :=
  if rule.tool_name ≠ "*" ∧ rule.tool_name ≠ toolName then some false
  else if rule.rule_content = "" then some true
  else
    let pattern := rule.rule_content.data
    if toolName = "Bash" ∧ truthyField input "command" then
      matchGlob pattern (jsToChars (getField input "command"))
    else if (toolName = "Write" ∨ toolName = "Edit" ∨ toolName = "Read") ∧
        truthyField input "file_path" then
      matchGlob pattern (jsToChars (getField input "file_path"))
    else
      matchGlob pattern (jsonStringify (.obj input))

/-- Descending insertion by priority, stable for ties: the model of
`ORDER BY priority DESC`. -/
def insertByPriority (r : PermissionRule) : List PermissionRule → List PermissionRule
  | [] => [r]
  | x :: xs => if x.priority < r.priority then r :: x :: xs else x :: insertByPriority r xs

/-- Stable descending sort by priority. -/
def sortByPriorityDesc (rs : List PermissionRule) : List PermissionRule :=
  rs.foldr insertByPriority []

/-- JavaScript truthiness of the `projectId` argument (`string | null`):
both `null` and the empty string are falsy and select the global query. -/
def truthyProjectId : Option String → Bool
  | none => false
  | some p => !p.isEmpty

/-- The two `SELECT ... ORDER BY priority DESC` branches of
`findMatchingRule`, failing when the store throws. -/
def queryRulesForScope (db : RuleDb) (projectId : Option String) (behavior : String) :
    Except EvalErr (List PermissionRule) :=
  if db.dbFails then .error .dbError
  else if truthyProjectId projectId then
    .ok (sortByPriorityDesc (db.rules.filter fun r =>
      r.project_id == projectId && r.behavior == behavior))
  else
    .ok (sortByPriorityDesc (db.rules.filter fun r =>
      r.project_id == none && r.behavior == behavior))

/-- The scan of `findMatchingRule` over the ordered rules: first rule
whose `matchesRule` is true; an exception from the matcher propagates. -/
def findFirstMatch (toolName : String) (input : ToolInput) :
    List PermissionRule → Except EvalErr (Option PermissionRule)
  | [] => .ok none
  | r :: rs =>
    match matchesRule r toolName input with
    | none => .error .regexSyntaxError
    | some true => .ok (some r)
    | some false => findFirstMatch toolName input rs

/-- Model of `findMatchingRule(projectId, toolName, toolInput, behavior)`. -/
def findMatchingRule (db : RuleDb) (projectId : Option String) (toolName : String)
    (input : ToolInput) (behavior : String) : Except EvalErr (Option PermissionRule) :=
  match queryRulesForScope db projectId behavior with
  | .error e => .error e
  | .ok rules => findFirstMatch toolName input rules

/-- Model of `logDecision`: one `INSERT` into `permission_log`;
`decided_by` is `"system"` for the two automatic sources. -/
def logDecision (db : RuleDb) (sessionId requestId toolName : String) (input : ToolInput)
    (decision source : String) (ruleId : Option String) : Except EvalErr RuleDb :=
  if db.dbFails then .error .dbError
  else
    .ok ⟨db.rules,
      db.auditLog ++
        [⟨sessionId, requestId, toolName, jsonStringify (.obj input), decision, source,
          ruleId, if source = "auto_rule" ∨ source = "auto_default" then "system" else source⟩],
      db.dbFails⟩

/-- Model of `permissionEngine.evaluate`: project deny, global deny,
project allow, global allow, then the auto-allow default, writing one
audit row on the taken path.  The source has no try/catch, so a failure
of the store or of the regex construction propagates as `.error`. -/
def evaluate (db : RuleDb) (sessionId projectId requestId toolName : String)
    (input : ToolInput) : Except EvalErr (String × RuleDb) := do
  let projectDeny ← findMatchingRule db (some projectId) toolName input "deny"
  match projectDeny with
  | some r =>
    let db2 ← logDecision db sessionId requestId toolName input "deny" "auto_rule" (some r.id)
    return ("deny", db2)
  | none =>
    let globalDeny ← findMatchingRule db none toolName input "deny"
    match globalDeny with
    | some r =>
      let db2 ← logDecision db sessionId requestId toolName input "deny" "auto_rule" (some r.id)
      return ("deny", db2)
    | none =>
      let projectAllow ← findMatchingRule db (some projectId) toolName input "allow"
      match projectAllow with
      | some r =>
        let db2 ← logDecision db sessionId requestId toolName input "allow" "auto_rule" (some r.id)
        return ("allow", db2)
      | none =>
        let globalAllow ← findMatchingRule db none toolName input "allow"
        match globalAllow with
        | some r =>
          let db2 ← logDecision db sessionId requestId toolName input "allow" "auto_rule" (some r.id)
          return ("allow", db2)
        | none =>
          let db2 ← logDecision db sessionId requestId toolName input "allow" "auto_default" none
          return ("allow", db2)

/-! ### The specification's reading of the evaluation order (for C1)

The claim describes the decision as the first match over one list: the
project deny rules, then the global deny rules, then the project allow
rules, then the global allow rules, each group ordered by priority
descending.  `specEvaluate` is written from those words and is compared
with `evaluate` in the theorems. -/

/-- The candidate rules in the order the specification describes. -/
def specCandidates (db : RuleDb) (projectId : String) :
    Except EvalErr (List PermissionRule) := do
  let pd ← queryRulesForScope db (some projectId) "deny"
  let gd ← queryRulesForScope db none "deny"
  let pa ← queryRulesForScope db (some projectId) "allow"
  let ga ← queryRulesForScope db none "allow"
  return pd ++ gd ++ pa ++ ga

/-- Decision, decision source and rule id as the specification words
them: the first matching candidate decides, otherwise the auto-allow
default. -/
def specEvaluate (db : RuleDb) (projectId toolName : String) (input : ToolInput) :
    Except EvalErr (String × String × Option String) := do
  let cands ← specCandidates db projectId
  let hit ← findFirstMatch toolName input cands
  match hit with
  | some r => return (r.behavior, "auto_rule", some r.id)
  | none => return ("allow", "auto_default", none)

/-! ## Rule updates (`permissionEngine.updateRule`) -/

/-- A value carried by one entry of the update payload (SQLite stores
text or integers for the four mutable columns). -/
inductive SqlValue where
  | s (v : String)
  | i (v : Int)

/-- The runtime update payload: the four typed fields the API declares,
plus arbitrary further properties an attacker may inject (their keys are
what the allowlist must reject).  A field set to `undefined` in
JavaScript is skipped by the source exactly like an absent field and is
modelled as `none`. -/
structure RuleUpdatePayload where
  tool_name : Option String
  rule_content : Option String
  behavior : Option String
  priority : Option Int
  extra : List (String × SqlValue)

/-- The entries of `Object.entries(updates)` with defined values. -/
def payloadEntries (u : RuleUpdatePayload) : List (String × SqlValue) :=
  (match u.tool_name with | some v => [("tool_name", .s v)] | none => []) ++
  (match u.rule_content with | some v => [("rule_content", .s v)] | none => []) ++
  (match u.behavior with | some v => [("behavior", .s v)] | none => []) ++
  (match u.priority with | some v => [("priority", .i v)] | none => []) ++
  u.extra

/-- The source's `ALLOWED_COLUMNS`. -/
def allowedColumns : List String :=
  ["tool_name", "rule_content", "behavior", "priority"]

/-- Effect of one `SET key = value` on a row of `permission_rules`; a
key naming no column of matching type leaves the row unchanged. -/
def applySqlSet (r : PermissionRule) : String × SqlValue → PermissionRule
  | ("tool_name", .s v) => ⟨r.id, r.project_id, v, r.rule_content, r.behavior, r.priority, r.created_at⟩
  | ("rule_content", .s v) => ⟨r.id, r.project_id, r.tool_name, v, r.behavior, r.priority, r.created_at⟩
  | ("behavior", .s v) => ⟨r.id, r.project_id, r.tool_name, r.rule_content, v, r.priority, r.created_at⟩
  | ("priority", .i v) => ⟨r.id, r.project_id, r.tool_name, r.rule_content, r.behavior, v, r.created_at⟩
  | _ => r

/-- Model of `updateRule` on the addressed row: keep the entries whose
key is in `ALLOWED_COLUMNS` and apply the resulting `UPDATE`. -/
def updateRule (r : PermissionRule) (u : RuleUpdatePayload) : PermissionRule :=
  ((payloadEntries u).filter fun kv => allowedColumns.contains kv.1).foldl applySqlSet r

/-! ## The session manager (`src/core/session-manager.ts`) -/

/-- A row of the `sessions` table, with the counters at their schema
defaults on insertion.  `total_cost_usd` is a REAL column holding the
protocol's cumulative cost; the handler stores it without arithmetic, so
`Rat` carries it faithfully. -/
structure SessionRow where
  id : String
  project_id : String
  session_id : String
  name : String
  status : String
  model : String
  cli_pid : Option Nat
  ws_port : Option Nat
  total_cost_usd : Rat
  total_input_tokens : Nat
  total_output_tokens : Nat
  num_turns : Nat
  error_message : String
  created_at : String
  last_active_at : String
  closed_at : Option String

/-- The fields of a `result` message the handler reads:
`total_cost_usd` at top level and the two token counts inside the
optional `usage` object.  A missing `usage` object and a missing field
both surface to the handler as `undefined` and are modelled as `none`. -/
structure CliResultMsg where
  total_cost_usd : Option Rat
  usage_input_tokens : Option Nat
  usage_output_tokens : Option Nat

/-- The single `UPDATE sessions SET ...` statement of the `result`
handler: SET the three counters from the message (`?? 0`), ADD one turn,
SET `last_active_at` and SET the status to idle. -/
def onResultUpdate (row : SessionRow) (msg : CliResultMsg) (now : String) : SessionRow :=
  ⟨row.id, row.project_id, row.session_id, row.name, "idle", row.model, row.cli_pid,
    row.ws_port, msg.total_cost_usd.getD 0, msg.usage_input_tokens.getD 0,
    msg.usage_output_tokens.getD 0, row.num_turns + 1, row.error_message,
    row.created_at, now, row.closed_at⟩

/-- Effect of `updateStatus` on the row (the emitted status bus event is
not part of the row). -/
def setStatus (row : SessionRow) (status : String) : SessionRow :=
  ⟨row.id, row.project_id, row.session_id, row.name, status, row.model, row.cli_pid,
    row.ws_port, row.total_cost_usd, row.total_input_tokens, row.total_output_tokens,
    row.num_turns, row.error_message, row.created_at, row.last_active_at, row.closed_at⟩

/-- The whole `onResult` handler as it affects the session row: the
atomic update, then the (redundant) `updateStatus(id, "idle")` the
handler also performs.  The transcript insert touches the `messages`
table, not this row. -/
def onResult (row : SessionRow) (msg : CliResultMsg) (now : String) : SessionRow :=
  setStatus (onResultUpdate row msg now) "idle"

/-- A `session.error` / `session.closed` bus event as far as the claims
read it: its type tag, session id, reason tag and error message. -/
structure BusEvent where
  type : String
  session_id : String
  reason : String
  error_message : String

/-- The configuration values `create` consults. -/
structure SmConfig where
  wsPortRangeStart : Nat
  wsPortRangeEnd : Nat
  maxSessionsGlobal : Nat

/-- The session manager's state: the port-allocation set (insertion
order kept), the persisted session rows, the in-memory active table
(session id with its bridge port), and the bus events emitted so far. -/
structure SmState where
  usedPorts : List Nat
  sessions : List SessionRow
  active : List (String × Nat)
  events : List BusEvent

/-- The scan of `allocatePort`: the lowest port of
`[rangeStart, rangeEnd]` not in use; the fuel is the size of the range. -/
def firstFreeFrom : Nat → Nat → List Nat → Option Nat
  | 0, _, _ => none
  | k + 1, p, used => if used.contains p then firstFreeFrom k (p + 1) used else some p

/-- Model of `allocatePort` (without yet marking the port used);
exhaustion is `none`, which `create` turns into a conflict error. -/
def allocatePort (cfg : SmConfig) (used : List Nat) : Option Nat :=
  firstFreeFrom (cfg.wsPortRangeEnd + 1 - cfg.wsPortRangeStart) cfg.wsPortRangeStart used

/-- Model of `releasePort`. -/
def releasePort (used : List Nat) (p : Nat) : List Nat :=
  used.filter (fun q => q != p)

/-- The source's `VALID_PERMISSION_MODES`. -/
def validPermissionModes : List String :=
  ["acceptEdits", "bypassPermissions", "default", "delegate", "dontAsk", "plan"]

/-- Update the session row with the given id. -/
def updateRow (sessions : List SessionRow) (id : String) (f : SessionRow → SessionRow) :
    List SessionRow :=
  sessions.map fun r => if r.id = id then f r else r

/-- The persisted row with the given id, if any. -/
def rowById (sessions : List SessionRow) (id : String) : Option SessionRow :=
  sessions.find? fun r => r.id == id

/-- The statuses the specification calls terminal. -/
def isTerminalStatus (s : String) : Bool :=
  s = "closed" || s = "error"

/-- Errors `create` surfaces, by the source's taxonomy. -/
inductive CreateErr where
  | conflict
  | validation
  | bridgeBind
  | spawnFail
  | connectFail

/-- How the environment behaves during one `create` call: whether the
bridge's listen succeeds, whether the spawn produces a PID, and what
happens during the bounded connect wait. -/
inductive ConnectOutcome where
  | connected
  | timedOut
  | exitedBeforeConnect

/-- The environment of one `create` call, including the stderr the
subprocess has produced by the time it is consulted. -/
structure CreateEnv where
  bridgeBindOk : Bool
  spawnPid : Option Nat
  connect : ConnectOutcome
  stderr : String

/-- Model of `handleProcessExit(sessionId, port)`: release the port,
drop the active entry (reading its captured stderr first — a session no
longer active reports empty stderr), close the bridge, and for a
non-closed row decide the final status, error message and `session.error`
event exactly as the source does. -/
def handleProcessExit (st : SmState) (id : String) (port : Nat) (stderr : String)
    (now : String) : SmState :=
  let sErr := if st.active.any (fun e => e.1 == id) then stderr else ""
  let st1 : SmState :=
    ⟨releasePort st.usedPorts port, st.sessions,
      st.active.filter (fun e => e.1 != id), st.events⟩
  match rowById st1.sessions id with
  | none => st1
  | some row =>
    if row.status = "closed" then st1
    else
      let neverBecameActive := row.status = "starting" ∨ row.status = "idle"
      let wasActive := row.status = "active"
      let finalStatus :=
        if wasActive ∨ (neverBecameActive ∧ sErr ≠ "") then "error" else "closed"
      let errorMessage :=
        if sErr ≠ "" then sErr
        else if wasActive then "CLI process exited unexpectedly during active turn" else ""
      let st2 : SmState :=
        ⟨st1.usedPorts,
          updateRow st1.sessions id fun r =>
            ⟨r.id, r.project_id, r.session_id, r.name, finalStatus, r.model, r.cli_pid,
              r.ws_port, r.total_cost_usd, r.total_input_tokens, r.total_output_tokens,
              r.num_turns, errorMessage, r.created_at, r.last_active_at, some now⟩,
          st1.active, st1.events⟩
      if finalStatus = "error" then
        let reason :=
          if neverBecameActive then "cli_exited_before_connect" else "unexpected_exit"
        ⟨st2.usedPorts, st2.sessions, st2.active,
          st2.events ++ [⟨"session.error", id, reason, errorMessage⟩]⟩
      else st2

/-- The cleanup of `create`'s connect-failure catch block: drop the
active entry, close the bridge, release the port, kill the subprocess,
mark the row errored with the captured stderr (or, when stderr is empty,
the exception's message), and emit the `cli_failed_to_connect` event. -/
def connectFailCleanup (st : SmState) (id : String) (port : Nat) (stderr : String)
    (fallbackMsg : String) (now : String) : SmState :=
  let errorMessage := if stderr ≠ "" then stderr else fallbackMsg
  ⟨releasePort st.usedPorts port,
    updateRow st.sessions id fun r =>
      ⟨r.id, r.project_id, r.session_id, r.name, "error", r.model, r.cli_pid, r.ws_port,
        r.total_cost_usd, r.total_input_tokens, r.total_output_tokens, r.num_turns,
        errorMessage, r.created_at, r.last_active_at, some now⟩,
    st.active.filter (fun e => e.1 != id),
    st.events ++ [⟨"session.error", id, "cli_failed_to_connect", errorMessage⟩]⟩

/-- A fresh row as `create` inserts it (status starting, counters at
their schema defaults, no PID yet). -/
def mkStartingRow (id projectId name model : String) (port : Nat) (now : String) :
    SessionRow :=
  ⟨id, projectId, "", name, "starting", model, none, some port, 0, 0, 0, 0, "", now, now, none⟩

/-- Model of `sessionManager.create`, step for step: the global cap
check, the port allocation, the permission-mode validation (after the
allocation, as in the source), the row insert, the bridge bind (whose
rejection the source does not catch), the guarded spawn, and the bounded
connect wait with its cleanup paths.  When the subprocess exits before
connecting, the exit watcher (`handleProcessExit`) runs before the
promise rejection resumes the catch block, as the listeners fire in
registration order. -/
def create (cfg : SmConfig) (st : SmState) (id projectId defaultMode : String)
    (inputMode : Option String) (name model : String) (now : String) (env : CreateEnv) :
    Except CreateErr String × SmState :=
  if cfg.maxSessionsGlobal ≤ st.active.length then (.error .conflict, st)
  else
    match allocatePort cfg st.usedPorts with
    | none => (.error .conflict, st)
    | some port =>
      let st1 : SmState := ⟨st.usedPorts ++ [port], st.sessions, st.active, st.events⟩
      let rawMode := inputMode.getD defaultMode
      if rawMode ≠ "" ∧ ¬ validPermissionModes.contains rawMode then
        (.error .validation, st1)
      else
        let st2 : SmState :=
          ⟨st1.usedPorts, st1.sessions ++ [mkStartingRow id projectId name model port now],
            st1.active, st1.events⟩
        if ¬ env.bridgeBindOk then (.error .bridgeBind, st2)
        else
          match env.spawnPid with
          | none =>
            let st3 : SmState :=
              ⟨releasePort st2.usedPorts port,
                updateRow st2.sessions id fun r =>
                  ⟨r.id, r.project_id, r.session_id, r.name, "error", r.model, r.cli_pid,
                    r.ws_port, r.total_cost_usd, r.total_input_tokens,
                    r.total_output_tokens, r.num_turns, "spawn failed", r.created_at,
                    r.last_active_at, some now⟩,
                st2.active, st2.events⟩
            (.error .spawnFail, st3)
          | some pid =>
            let st4 : SmState :=
              ⟨st2.usedPorts,
                updateRow st2.sessions id fun r =>
                  ⟨r.id, r.project_id, r.session_id, r.name, r.status, r.model, some pid,
                    r.ws_port, r.total_cost_usd, r.total_input_tokens,
                    r.total_output_tokens, r.num_turns, r.error_message, r.created_at,
                    r.last_active_at, r.closed_at⟩,
                st2.active ++ [(id, port)], st2.events⟩
            match env.connect with
            | .connected =>
              (.ok id,
                ⟨st4.usedPorts, updateRow st4.sessions id (fun r => setStatus r "idle"),
                  st4.active, st4.events⟩)
            | .timedOut =>
              (.error .connectFail,
                connectFailCleanup st4 id port env.stderr
                  "CLI failed to connect to bridge within 15s" now)
            | .exitedBeforeConnect =>
              let stA := handleProcessExit st4 id port env.stderr now
              (.error .connectFail,
                connectFailCleanup stA id port env.stderr
                  "CLI process exited before connecting to bridge" now)

/-- The specification's port-pool invariant: the allocated ports lie in
the configured inclusive range and are, as a multiset, exactly the
`ws_port` values of the non-terminal sessions. -/
def portInvariant (cfg : SmConfig) (st : SmState) : Prop :=
  (∀ p ∈ st.usedPorts, cfg.wsPortRangeStart ≤ p ∧ p ≤ cfg.wsPortRangeEnd) ∧
    (st.usedPorts : Multiset Nat) =
      ((st.sessions.filter fun r => !isTerminalStatus r.status).filterMap fun r => r.ws_port)

instance (cfg : SmConfig) (st : SmState) : Decidable (portInvariant cfg st) := by
  unfold portInvariant
  infer_instance

/-! ## Theorems -/

theorem filter_extra_nil {ex : List (String × SqlValue)}
    (hx : ∀ kv ∈ ex, allowedColumns.contains kv.1 = false) :
    ex.filter (fun kv => allowedColumns.contains kv.1) = [] := by
  induction ex with
  | nil => rfl
  | cons kv tl ih =>
    have h1 := hx kv (List.mem_cons_self kv tl)
    have h2 : ∀ kv2 ∈ tl, allowedColumns.contains kv2.1 = false := fun kv2 hm =>
      hx kv2 (List.mem_cons_of_mem kv hm)
    rw [List.filter_cons_of_neg, ih h2]
    simpa using h1

/-- C7.  For every update call, the columns of the addressed
`permission_rules` row that are written are exactly the payload keys that
lie in the allowlist `{tool_name, rule_content, behavior, priority}`:
each of the four mutable columns receives the payload value when its key
is present and keeps its old value otherwise, every other payload key is
silently ignored, and `id`, `project_id` and `created_at` are unchanged
by the update. -/
theorem update_rule_field_filter (r : PermissionRule) (u : RuleUpdatePayload)
    (hx : ∀ kv ∈ u.extra, allowedColumns.contains kv.1 = false) :
    (updateRule r u).id = r.id ∧
    (updateRule r u).project_id = r.project_id ∧
    (updateRule r u).created_at = r.created_at ∧
    (updateRule r u).tool_name = u.tool_name.getD r.tool_name ∧
    (updateRule r u).rule_content = u.rule_content.getD r.rule_content ∧
    (updateRule r u).behavior = u.behavior.getD r.behavior ∧
    (updateRule r u).priority = u.priority.getD r.priority := by
  obtain ⟨tn, rc, bh, pr, ex⟩ := u
  have hex := filter_extra_nil hx
  cases tn <;> cases rc <;> cases bh <;> cases pr <;>
    · simp only [updateRule, payloadEntries, List.filter_append, hex, List.append_nil,
        List.nil_append]
      simp [applySqlSet, allowedColumns, List.filter_cons]

/-- Witness for C7: the repository's own attack scenario — an update
naming `tool_name` together with injected `id` and `created_at` keys
changes only `tool_name`. -/
theorem update_rule_field_filter_witness :
    (updateRule ⟨"r1", some "P", "Bash", "", "allow", 0, "t0"⟩
        ⟨some "Read", none, none, none, [("id", .s "hacked-id"), ("created_at", .s "2000-01-01")]⟩).id
      = "r1" ∧
    (updateRule ⟨"r1", some "P", "Bash", "", "allow", 0, "t0"⟩
        ⟨some "Read", none, none, none, [("id", .s "hacked-id"), ("created_at", .s "2000-01-01")]⟩).created_at
      = "t0" ∧
    (updateRule ⟨"r1", some "P", "Bash", "", "allow", 0, "t0"⟩
        ⟨some "Read", none, none, none, [("id", .s "hacked-id"), ("created_at", .s "2000-01-01")]⟩).tool_name
      = "Read" := by
  have h := update_rule_field_filter ⟨"r1", some "P", "Bash", "", "allow", 0, "t0"⟩
    ⟨some "Read", none, none, none, [("id", .s "hacked-id"), ("created_at", .s "2000-01-01")]⟩
    (by decide)
  exact ⟨h.1, h.2.2.1, h.2.2.2.1⟩

/-- C2.  The `result` handler stores the message's cost and token totals
by replacement (never by addition), adds exactly one to `num_turns`,
sets `last_active_at` and sets the status to idle, all in one update; in
particular after two consecutive results the counters carry the second
result's values, not a sum. -/
theorem result_handler_set_semantics (row : SessionRow) (msg m1 m2 : CliResultMsg)
    (now t1 t2 : String) (c : Rat) (tin tout : Nat)
    (hc : msg.total_cost_usd = some c) (hi : msg.usage_input_tokens = some tin)
    (ho : msg.usage_output_tokens = some tout) :
    ((onResult row msg now).total_cost_usd = c ∧
      (onResult row msg now).total_input_tokens = tin ∧
      (onResult row msg now).total_output_tokens = tout ∧
      (onResult row msg now).num_turns = row.num_turns + 1 ∧
      (onResult row msg now).last_active_at = now ∧
      (onResult row msg now).status = "idle") ∧
    ((onResult (onResult row m1 t1) m2 t2).total_cost_usd = m2.total_cost_usd.getD 0 ∧
      (onResult (onResult row m1 t1) m2 t2).total_input_tokens =
        m2.usage_input_tokens.getD 0 ∧
      (onResult (onResult row m1 t1) m2 t2).total_output_tokens =
        m2.usage_output_tokens.getD 0 ∧
      (onResult (onResult row m1 t1) m2 t2).num_turns = row.num_turns + 2) := by
  simp [onResult, onResultUpdate, setStatus, hc, hi, ho]

/-- Witness for C2: the specification's S3 scenario — results carrying
(0.05, 100, 50) then (0.12, 240, 130) leave the counters at the second
result's values with two turns counted. -/
theorem result_handler_set_semantics_witness :
    ((onResult (⟨"s1", "P", "", "n", "idle", "m", none, some 9000, 0, 0, 0, 0, "", "t0", "t0", none⟩ : SessionRow)
        ⟨some (5/100), some 100, some 50⟩ "t1").total_cost_usd = 5/100 ∧
      (onResult (⟨"s1", "P", "", "n", "idle", "m", none, some 9000, 0, 0, 0, 0, "", "t0", "t0", none⟩ : SessionRow)
        ⟨some (5/100), some 100, some 50⟩ "t1").total_input_tokens = 100 ∧
      (onResult (⟨"s1", "P", "", "n", "idle", "m", none, some 9000, 0, 0, 0, 0, "", "t0", "t0", none⟩ : SessionRow)
        ⟨some (5/100), some 100, some 50⟩ "t1").total_output_tokens = 50 ∧
      (onResult (⟨"s1", "P", "", "n", "idle", "m", none, some 9000, 0, 0, 0, 0, "", "t0", "t0", none⟩ : SessionRow)
        ⟨some (5/100), some 100, some 50⟩ "t1").num_turns = 0 + 1 ∧
      (onResult (⟨"s1", "P", "", "n", "idle", "m", none, some 9000, 0, 0, 0, 0, "", "t0", "t0", none⟩ : SessionRow)
        ⟨some (5/100), some 100, some 50⟩ "t1").last_active_at = "t1" ∧
      (onResult (⟨"s1", "P", "", "n", "idle", "m", none, some 9000, 0, 0, 0, 0, "", "t0", "t0", none⟩ : SessionRow)
        ⟨some (5/100), some 100, some 50⟩ "t1").status = "idle") ∧
    ((onResult (onResult (⟨"s1", "P", "", "n", "idle", "m", none, some 9000, 0, 0, 0, 0, "", "t0", "t0", none⟩ : SessionRow)
        ⟨some (5/100), some 100, some 50⟩ "t1") ⟨some (12/100), some 240, some 130⟩ "t2").total_cost_usd
        = (⟨some (12/100), some 240, some 130⟩ : CliResultMsg).total_cost_usd.getD 0 ∧
      (onResult (onResult (⟨"s1", "P", "", "n", "idle", "m", none, some 9000, 0, 0, 0, 0, "", "t0", "t0", none⟩ : SessionRow)
        ⟨some (5/100), some 100, some 50⟩ "t1") ⟨some (12/100), some 240, some 130⟩ "t2").total_input_tokens
        = (⟨some (12/100), some 240, some 130⟩ : CliResultMsg).usage_input_tokens.getD 0 ∧
      (onResult (onResult (⟨"s1", "P", "", "n", "idle", "m", none, some 9000, 0, 0, 0, 0, "", "t0", "t0", none⟩ : SessionRow)
        ⟨some (5/100), some 100, some 50⟩ "t1") ⟨some (12/100), some 240, some 130⟩ "t2").total_output_tokens
        = (⟨some (12/100), some 240, some 130⟩ : CliResultMsg).usage_output_tokens.getD 0 ∧
      (onResult (onResult (⟨"s1", "P", "", "n", "idle", "m", none, some 9000, 0, 0, 0, 0, "", "t0", "t0", none⟩ : SessionRow)
        ⟨some (5/100), some 100, some 50⟩ "t1") ⟨some (12/100), some 240, some 130⟩ "t2").num_turns
        = 0 + 2) :=
  result_handler_set_semantics
    ⟨"s1", "P", "", "n", "idle", "m", none, some 9000, 0, 0, 0, 0, "", "t0", "t0", none⟩
    ⟨some (5/100), some 100, some 50⟩ ⟨some (5/100), some 100, some 50⟩
    ⟨some (12/100), some 240, some 130⟩ "t1" "t1" "t2" (5/100) 100 50 rfl rfl rfl

/-- C10.  A `result` message that omits `total_cost_usd`, or omits
`usage.input_tokens` or `usage.output_tokens`, makes the handler store 0
in the corresponding counter — overwriting the stored totals rather than
leaving them unchanged — while still counting the turn and setting the
status to idle. -/
theorem result_handler_missing_fields (row : SessionRow) (msg : CliResultMsg)
    (now : String) :
    (msg.total_cost_usd = none → (onResult row msg now).total_cost_usd = 0) ∧
    (msg.usage_input_tokens = none → (onResult row msg now).total_input_tokens = 0) ∧
    (msg.usage_output_tokens = none → (onResult row msg now).total_output_tokens = 0) ∧
    (onResult row msg now).num_turns = row.num_turns + 1 ∧
    (onResult row msg now).status = "idle" := by
  refine ⟨fun hc => ?_, fun hi => ?_, fun ho => ?_, ?_, ?_⟩ <;>
    simp_all [onResult, onResultUpdate, setStatus]

/-- C6.  The source escapes the class `[.+^${}()|[\]\\]` before building
the anchored regex, which omits the metacharacter `?`: the pattern
`file?` therefore compiles to `^file?$`, fails to match the literal
string `file?`, and instead matches `file` and `fil`.  This refutes the
specification's requirement that every regex metacharacter except `*` be
escaped (a pattern without `*` would then match exactly itself). -/
theorem match_glob_question_mark_unescaped :
    matchGlob "file?".data "file?".data = some false ∧
    matchGlob "file?".data "file".data = some true ∧
    matchGlob "file?".data "fil".data = some true := by
  exact ⟨rfl, rfl, rfl⟩

/-- C4.  `evaluate` has no try/catch: a rule-store read error propagates
to the caller instead of being logged and falling through to the
`auto_default` allow, and so does a `RegExp` SyntaxError raised while
matching a rule whose pattern compiles to a malformed regex (here `?`,
whose generated regex `^?$` has nothing to repeat).  In both runs no
decision is returned and no audit row is written. -/
theorem evaluate_error_propagates :
    evaluate ⟨[], [], true⟩ "S" "P" "req" "Bash" [] = .error .dbError ∧
    evaluate ⟨[⟨"r1", some "P", "Bash", "?", "deny", 0, "t0"⟩], [], false⟩
        "S" "P" "req" "Bash" [("command", Json.str "x")] = .error .regexSyntaxError := by
  exact ⟨rfl, rfl⟩

/-- Counterexample for C5: the pattern `a:*:b` contains a colon and the
text after its first colon is `*:b`, not `*`, so by the claim the prefix
special case must not apply and ordinary anchored glob matching (which
rejects `ax`) must be used; the source instead consults
`split(":", 2)[1]`, which is exactly `*`, applies the prefix test and
accepts `ax`. -/
theorem match_glob_colon_counterexample :
    ("a:*:b".data.contains ':' = true) ∧
    afterFirst ':' "a:*:b".data = "*:b".data ∧
    matchGlob "a:*:b".data "ax".data = some true ∧
    globRegexMatch "a:*:b".data "ax".data = some false := by
  exact ⟨rfl, rfl, rfl, rfl⟩

/-- C5 as amended.  For a pattern containing `:`, the special case fires
exactly when the segment between the first colon and the following colon
or end of pattern — `pattern.split(":", 2)[1]` — is `*`: the match then
succeeds iff the value starts with the portion before the first colon;
otherwise ordinary anchored glob matching is used. -/
theorem match_glob_colon_cases (p v : List Char) (hc : p.contains ':' = true) :
    (splitColonSecond p = ['*'] →
      matchGlob p v = some (List.isPrefixOf (beforeFirst ':' p) v)) ∧
    (splitColonSecond p ≠ ['*'] → matchGlob p v = globRegexMatch p v) := by
  have hc2 : ':' ∈ p := by simpa using hc
  constructor <;> intro h <;> simp [matchGlob, hc2, h]

/-- Witness for C5: the special case at `git:*` on `git commit -m x`,
and the regex branch at `npm *` (no colon-star segment). -/
theorem match_glob_colon_cases_witness :
    (splitColonSecond "git:*".data = ['*'] →
      matchGlob "git:*".data "git commit -m x".data =
        some (List.isPrefixOf (beforeFirst ':' "git:*".data) "git commit -m x".data)) ∧
    (splitColonSecond "git:*".data ≠ ['*'] →
      matchGlob "git:*".data "git commit -m x".data =
        globRegexMatch "git:*".data "git commit -m x".data) :=
  match_glob_colon_cases "git:*".data "git commit -m x".data rfl

/-- C3.  `create` allocates the port before validating the permission
mode and the validation throw performs no cleanup: from an empty state,
a create call with permission mode `yolo` fails with a validation error
while leaving port 9000 marked used and no session row at all, breaking
the port-pool invariant the specification states.  A bridge bind failure
likewise escapes the uncaught `await` with the port still allocated and
the row left in the non-terminal status `starting`. -/
theorem create_cleanup_violations :
    (create ⟨9000, 9100, 20⟩ ⟨[], [], [], []⟩ "s1" "P" "default" (some "yolo") "n" "m" "t0"
        ⟨true, some 55, .connected, ""⟩).1 = .error .validation ∧
    (create ⟨9000, 9100, 20⟩ ⟨[], [], [], []⟩ "s1" "P" "default" (some "yolo") "n" "m" "t0"
        ⟨true, some 55, .connected, ""⟩).2.usedPorts = [9000] ∧
    (create ⟨9000, 9100, 20⟩ ⟨[], [], [], []⟩ "s1" "P" "default" (some "yolo") "n" "m" "t0"
        ⟨true, some 55, .connected, ""⟩).2.sessions = [] ∧
    portInvariant ⟨9000, 9100, 20⟩ ⟨[], [], [], []⟩ ∧
    ¬ portInvariant ⟨9000, 9100, 20⟩
      (create ⟨9000, 9100, 20⟩ ⟨[], [], [], []⟩ "s1" "P" "default" (some "yolo") "n" "m" "t0"
        ⟨true, some 55, .connected, ""⟩).2 ∧
    (create ⟨9000, 9100, 20⟩ ⟨[], [], [], []⟩ "s1" "P" "default" none "n" "m" "t0"
        ⟨false, some 55, .connected, ""⟩).1 = .error .bridgeBind ∧
    (create ⟨9000, 9100, 20⟩ ⟨[], [], [], []⟩ "s1" "P" "default" none "n" "m" "t0"
        ⟨false, some 55, .connected, ""⟩).2.usedPorts = [9000] ∧
    (rowById (create ⟨9000, 9100, 20⟩ ⟨[], [], [], []⟩ "s1" "P" "default" none "n" "m" "t0"
        ⟨false, some 55, .connected, ""⟩).2.sessions "s1").map (fun r => r.status)
      = some "starting" := by
  refine ⟨rfl, rfl, rfl, by decide, ?_, rfl, rfl, rfl⟩
  intro hinv
  have h2 := hinv.2
  revert h2
  decide

/-! ### Helper lemmas for the evaluation-order refinement (C1) -/

theorem findFirstMatch_append (toolName : String) (input : ToolInput)
    (A B : List PermissionRule) :
    findFirstMatch toolName input (A ++ B) =
      match findFirstMatch toolName input A with
      | .error e => .error e
      | .ok (some r) => .ok (some r)
      | .ok none => findFirstMatch toolName input B := by
  induction A with
  | nil => simp [findFirstMatch]
  | cons r rs ih =>
    simp only [List.cons_append, findFirstMatch]
    cases hm : matchesRule r toolName input with
    | none => rfl
    | some b =>
      cases b with
      | true => rfl
      | false => exact ih

theorem findFirstMatch_mem {toolName : String} {input : ToolInput}
    {l : List PermissionRule} {r : PermissionRule}
    (h : findFirstMatch toolName input l = .ok (some r)) : r ∈ l := by
  induction l with
  | nil => simp [findFirstMatch] at h
  | cons x xs ih =>
    simp only [findFirstMatch] at h
    cases hm : matchesRule x toolName input with
    | none => rw [hm] at h; exact absurd h (by simp)
    | some b =>
      rw [hm] at h
      cases b with
      | true =>
        simp only [Except.ok.injEq, Option.some.injEq] at h
        exact h ▸ List.mem_cons_self x xs
      | false => exact List.mem_cons_of_mem x (ih h)

theorem mem_insertByPriority {x r : PermissionRule} {l : List PermissionRule} :
    x ∈ insertByPriority r l ↔ x = r ∨ x ∈ l := by
  induction l with
  | nil => simp [insertByPriority]
  | cons y ys ih =>
    simp only [insertByPriority]
    split
    · simp [List.mem_cons]
    · simp only [List.mem_cons, ih]
      tauto

theorem mem_sortByPriorityDesc {x : PermissionRule} {l : List PermissionRule} :
    x ∈ sortByPriorityDesc l ↔ x ∈ l := by
  induction l with
  | nil => simp [sortByPriorityDesc]
  | cons y ys ih =>
    simp only [sortByPriorityDesc, List.foldr_cons, List.mem_cons] at *
    rw [mem_insertByPriority, ih]

theorem behavior_of_scope {db : RuleDb} {pid : Option String} {b : String}
    {l : List PermissionRule} {r : PermissionRule}
    (hq : queryRulesForScope db pid b = .ok l) (hr : r ∈ l) : r.behavior = b := by
  unfold queryRulesForScope at hq
  split at hq
  · exact absurd hq (by simp)
  · split at hq <;>
    · simp only [Except.ok.injEq] at hq
      subst hq
      rw [mem_sortByPriorityDesc] at hr
      have := (List.mem_filter.mp hr).2
      simp only [Bool.and_eq_true, beq_iff_eq] at this
      exact this.2

theorem scope_query_ok {db : RuleDb} (hdb : db.dbFails = false) (pid : Option String)
    (b : String) : ∃ l, queryRulesForScope db pid b = .ok l := by
  unfold queryRulesForScope
  rw [if_neg (by simp [hdb])]
  split <;> exact ⟨_, rfl⟩

theorem logDecision_ok {db : RuleDb} (hdb : db.dbFails = false)
    (sessionId requestId toolName : String) (input : ToolInput)
    (decision : String) (ruleId : Option String) (source : String)
    (hsrc : source = "auto_rule" ∨ source = "auto_default") :
    logDecision db sessionId requestId toolName input decision source ruleId =
      .ok ⟨db.rules,
        db.auditLog ++
          [⟨sessionId, requestId, toolName, jsonStringify (.obj input), decision, source,
            ruleId, "system"⟩],
        db.dbFails⟩ := by
  rw [logDecision, if_neg (by simp [hdb]), if_pos hsrc, hdb]

/-- C1.  Whenever `evaluate` returns a decision, that decision agrees
with the specification's reading — the first match over the project deny
rules, then the global deny rules, then the project allow rules, then
the global allow rules, each ordered by priority descending, with the
auto-allow default when nothing matches — and exactly one audit row is
appended, recording the returned decision together with its source
(`auto_rule` with the matched rule's id, or `auto_default` with a null
rule id); the rule store is otherwise untouched. -/
theorem evaluate_refines_spec (db : RuleDb)
    (sessionId projectId requestId toolName : String) (input : ToolInput)
    (d : String) (db2 : RuleDb)
    (h : evaluate db sessionId projectId requestId toolName input = .ok (d, db2)) :
    ∃ src rid,
      specEvaluate db projectId toolName input = .ok (d, src, rid) ∧
      ((src = "auto_rule" ∧ ∃ r : PermissionRule, rid = some r.id ∧ r.behavior = d) ∨
        (src = "auto_default" ∧ rid = none ∧ d = "allow")) ∧
      db2.rules = db.rules ∧ db2.dbFails = db.dbFails ∧
      db2.auditLog = db.auditLog ++
        [⟨sessionId, requestId, toolName, jsonStringify (.obj input), d, src, rid,
          "system"⟩] := by
  by_cases hdb0 : db.dbFails
  · exfalso
    simp [evaluate, findMatchingRule, queryRulesForScope, hdb0, Bind.bind,
      Except.bind] at h
  · simp only [Bool.not_eq_true] at hdb0
    obtain ⟨PD, hPD⟩ := scope_query_ok hdb0 (some projectId) "deny"
    obtain ⟨GD, hGD⟩ := scope_query_ok hdb0 none "deny"
    obtain ⟨PA, hPA⟩ := scope_query_ok hdb0 (some projectId) "allow"
    obtain ⟨GA, hGA⟩ := scope_query_ok hdb0 none "allow"
    have hcand : specCandidates db projectId = .ok (PD ++ GD ++ PA ++ GA) := by
      simp [specCandidates, hPD, hGD, hPA, hGA, Bind.bind, Except.bind, Pure.pure,
        Except.pure]
    have hspec : specEvaluate db projectId toolName input =
        match findFirstMatch toolName input (PD ++ GD ++ PA ++ GA) with
        | .error e => .error e
        | .ok (some r) => .ok (r.behavior, "auto_rule", some r.id)
        | .ok none => .ok ("allow", "auto_default", none) := by
      simp only [specEvaluate, hcand, Bind.bind, Except.bind]
      cases hf : findFirstMatch toolName input (PD ++ GD ++ PA ++ GA) with
      | error e => rfl
      | ok o => cases o <;> rfl
    simp only [evaluate, findMatchingRule, hPD, hGD, hPA, hGA] at h
    rw [hspec, findFirstMatch_append, findFirstMatch_append, findFirstMatch_append]
    cases hfPD : findFirstMatch toolName input PD with
    | error e => rw [hfPD] at h; simp [Bind.bind, Except.bind] at h
    | ok oPD =>
      rw [hfPD] at h
      cases oPD with
      | some r =>
        simp only [Bind.bind, Except.bind] at h
        rw [logDecision_ok hdb0 sessionId requestId toolName input "deny" (some r.id)
          "auto_rule" (Or.inl rfl)] at h
        simp only [Pure.pure, Except.pure, Except.map_ok, Except.ok.injEq, Prod.mk.injEq] at h
        obtain ⟨hd, hdb2⟩ := h
        subst hd
        subst hdb2
        have hb : r.behavior = "deny" :=
          behavior_of_scope hPD (findFirstMatch_mem hfPD)
        exact ⟨"auto_rule", some r.id, by simp [hb], Or.inl ⟨rfl, r, rfl, hb⟩,
          rfl, rfl, rfl⟩
      | none =>
        simp only [Bind.bind, Except.bind] at h
        cases hfGD : findFirstMatch toolName input GD with
        | error e => rw [hfGD] at h; simp [Bind.bind, Except.bind] at h
        | ok oGD =>
          rw [hfGD] at h
          cases oGD with
          | some r =>
            simp only [Bind.bind, Except.bind] at h
            rw [logDecision_ok hdb0 sessionId requestId toolName input "deny" (some r.id)
              "auto_rule" (Or.inl rfl)] at h
            simp only [Pure.pure, Except.pure, Except.map_ok, Except.ok.injEq, Prod.mk.injEq] at h
            obtain ⟨hd, hdb2⟩ := h
            subst hd
            subst hdb2
            have hb : r.behavior = "deny" :=
              behavior_of_scope hGD (findFirstMatch_mem hfGD)
            exact ⟨"auto_rule", some r.id, by simp [hb], Or.inl ⟨rfl, r, rfl, hb⟩,
              rfl, rfl, rfl⟩
          | none =>
            simp only [Bind.bind, Except.bind] at h
            cases hfPA : findFirstMatch toolName input PA with
            | error e => rw [hfPA] at h; simp [Bind.bind, Except.bind] at h
            | ok oPA =>
              rw [hfPA] at h
              cases oPA with
              | some r =>
                simp only [Bind.bind, Except.bind] at h
                rw [logDecision_ok hdb0 sessionId requestId toolName input "allow"
                  (some r.id) "auto_rule" (Or.inl rfl)] at h
                simp only [Pure.pure, Except.pure, Except.map_ok, Except.ok.injEq, Prod.mk.injEq] at h
                obtain ⟨hd, hdb2⟩ := h
                subst hd
                subst hdb2
                have hb : r.behavior = "allow" :=
                  behavior_of_scope hPA (findFirstMatch_mem hfPA)
                exact ⟨"auto_rule", some r.id, by simp [hb], Or.inl ⟨rfl, r, rfl, hb⟩,
                  rfl, rfl, rfl⟩
              | none =>
                simp only [Bind.bind, Except.bind] at h
                cases hfGA : findFirstMatch toolName input GA with
                | error e => rw [hfGA] at h; simp [Bind.bind, Except.bind] at h
                | ok oGA =>
                  rw [hfGA] at h
                  cases oGA with
                  | some r =>
                    simp only [Bind.bind, Except.bind] at h
                    rw [logDecision_ok hdb0 sessionId requestId toolName input "allow"
                      (some r.id) "auto_rule" (Or.inl rfl)] at h
                    simp only [Pure.pure, Except.pure, Except.map_ok, Except.ok.injEq, Prod.mk.injEq] at h
                    obtain ⟨hd, hdb2⟩ := h
                    subst hd
                    subst hdb2
                    have hb : r.behavior = "allow" :=
                      behavior_of_scope hGA (findFirstMatch_mem hfGA)
                    exact ⟨"auto_rule", some r.id, by simp [hb],
                      Or.inl ⟨rfl, r, rfl, hb⟩, rfl, rfl, rfl⟩
                  | none =>
                    simp only [Bind.bind, Except.bind] at h
                    rw [logDecision_ok hdb0 sessionId requestId toolName input "allow"
                      none "auto_default" (Or.inr rfl)] at h
                    simp only [Pure.pure, Except.pure, Except.map_ok, Except.ok.injEq, Prod.mk.injEq] at h
                    obtain ⟨hd, hdb2⟩ := h
                    subst hd
                    subst hdb2
                    exact ⟨"auto_default", none, by simp, Or.inr ⟨rfl, rfl, rfl⟩,
                      rfl, rfl, rfl⟩

/-- Witness for C1: the specification's S1 scenario — a global allow and
a higher-priority project deny on `Bash`; the evaluation refinement
applied to the concrete run shows the specification-side first match
deciding `deny`. -/
theorem evaluate_refines_spec_witness :
    ∃ src rid,
      specEvaluate
          ⟨[⟨"g1", none, "Bash", "", "allow", 0, "t0"⟩,
            ⟨"p1", some "P", "Bash", "rm -rf *", "deny", 10, "t0"⟩], [], false⟩
          "P" "Bash" [("command", Json.str "rm -rf /tmp/x")] = .ok ("deny", src, rid) := by
  obtain ⟨src, rid, h1, -, -, -, -⟩ :=
    evaluate_refines_spec
      ⟨[⟨"g1", none, "Bash", "", "allow", 0, "t0"⟩,
        ⟨"p1", some "P", "Bash", "rm -rf *", "deny", 10, "t0"⟩], [], false⟩
      "S" "P" "req-1" "Bash" [("command", Json.str "rm -rf /tmp/x")] "deny"
      ⟨[⟨"g1", none, "Bash", "", "allow", 0, "t0"⟩,
        ⟨"p1", some "P", "Bash", "rm -rf *", "deny", 10, "t0"⟩],
       [⟨"S", "req-1", "Bash",
         jsonStringify (.obj [("command", Json.str "rm -rf /tmp/x")]), "deny",
         "auto_rule", some "p1", "system"⟩], false⟩
      rfl
  exact ⟨src, rid, h1⟩

/-! ### Helper lemmas for the process-exit paths (C9) -/

theorem rowById_updateRow (f : SessionRow → SessionRow) (hf : ∀ r, (f r).id = r.id) :
    ∀ {sessions : List SessionRow} {id : String} {row : SessionRow},
      rowById sessions id = some row →
      rowById (updateRow sessions id f) id = some (f row) := by
  intro sessions
  induction sessions with
  | nil => intro id row h; simp [rowById] at h
  | cons r rs ih =>
    intro id row h
    by_cases hr : r.id = id
    · have hb : (r.id == id) = true := by simpa using hr
      have hfb : ((if r.id = id then f r else r).id == id) = true := by
        simp [if_pos hr, hf, hr]
      unfold rowById at h
      unfold rowById updateRow
      simp only [List.map_cons, List.find?_cons, hfb]
      simp only [List.find?_cons, hb] at h
      simp only [Option.some.injEq] at h ⊢
      rw [if_pos hr, ← h]
    · have hb : (r.id == id) = false := by simpa using hr
      have hfb : ((if r.id = id then f r else r).id == id) = false := by
        rw [if_neg hr]
        exact hb
      unfold rowById at h
      unfold rowById updateRow
      simp only [List.map_cons, List.find?_cons, hfb]
      simp only [List.find?_cons, hb] at h
      exact ih h

/-- C9 counterexample.  A subprocess exit while the session is `active`
with an empty captured stderr stores the fallback description — not the
(empty) stderr content — in `error_message`, refuting the claim as
stated. -/
theorem process_exit_empty_stderr_counterexample :
    (rowById (handleProcessExit
        ⟨[9000],
         [⟨"s1", "P", "", "n", "active", "m", some 55, some 9000, 0, 0, 0, 0, "", "t0", "t0", none⟩],
         [("s1", 9000)], []⟩ "s1" 9000 "" "t1").sessions "s1").map (fun r => r.error_message)
      = some "CLI process exited unexpectedly during active turn" ∧
    "CLI process exited unexpectedly during active turn" ≠ "" := by
  exact ⟨rfl, by decide⟩

/-- C9 as amended.  A subprocess exit while the session is `active`
drives the row to status `error` with `error_message` holding the
captured stderr when it is non-empty (a descriptive fallback otherwise)
and emits a `session.error` event with reason `unexpected_exit`; an exit
before the bridge connection is established (the create flow: the exit
watcher, then the connect-wait catch block) likewise ends in status
`error` with stderr-or-fallback in `error_message` and emits a
`session.error` event with reason `cli_failed_to_connect` (the exit
watcher may additionally emit a `cli_exited_before_connect` event
first). -/
theorem process_exit_error_paths (st : SmState) (id : String) (port : Nat)
    (stderr now : String) (row : SessionRow)
    (hrow : rowById st.sessions id = some row)
    (hactive : st.active.any (fun e => e.1 == id) = true) :
    (row.status = "active" →
      (rowById (handleProcessExit st id port stderr now).sessions id).map
          (fun r => (r.status, r.error_message, r.closed_at)) =
        some ("error",
          (if stderr ≠ "" then stderr
            else "CLI process exited unexpectedly during active turn"), some now) ∧
      (handleProcessExit st id port stderr now).events =
        st.events ++ [⟨"session.error", id, "unexpected_exit",
          if stderr ≠ "" then stderr
            else "CLI process exited unexpectedly during active turn"⟩]) ∧
    (row.status = "starting" → ∀ fallbackMsg,
      (rowById (connectFailCleanup (handleProcessExit st id port stderr now) id port
            stderr fallbackMsg now).sessions id).map
          (fun r => (r.status, r.error_message, r.closed_at)) =
        some ("error", (if stderr ≠ "" then stderr else fallbackMsg), some now) ∧
      ∃ e ∈ (connectFailCleanup (handleProcessExit st id port stderr now) id port
          stderr fallbackMsg now).events,
        e.type = "session.error" ∧ e.session_id = id ∧
          e.reason = "cli_failed_to_connect" ∧
          e.error_message = (if stderr ≠ "" then stderr else fallbackMsg)) := by
  obtain ⟨ri, rp, rs2, rn, rst, rm, rcp, rwp, rc, rti, rto, rnt, rem, rca, rla, rcl⟩ := row
  constructor
  · intro hst
    change rst = "active" at hst
    subst hst
    constructor
    · simp [handleProcessExit, hactive, hrow, rowById_updateRow]
    · simp [handleProcessExit, hactive, hrow]
  · intro hst fallbackMsg
    change rst = "starting" at hst
    subst hst
    by_cases hse : stderr = ""
    · constructor
      · simp [handleProcessExit, connectFailCleanup, hactive, hrow,
          rowById_updateRow, hse]
      · simp [handleProcessExit, connectFailCleanup, hactive, hrow,
          rowById_updateRow, hse]
        exact ⟨_, Or.inr rfl, rfl, rfl, rfl, rfl⟩
    · constructor
      · simp [handleProcessExit, connectFailCleanup, hactive, hrow,
          rowById_updateRow, hse]
      · simp [handleProcessExit, connectFailCleanup, hactive, hrow,
          rowById_updateRow, hse]
        exact ⟨_, Or.inr (Or.inr rfl), rfl, rfl, rfl, rfl⟩

/-- Witness for C9: a concrete `active` session whose subprocess exits
with stderr `boom` ends errored with `boom` stored in `error_message`. -/
theorem process_exit_error_paths_witness :
    (rowById (handleProcessExit
        ⟨[9000],
         [⟨"s1", "P", "", "n", "active", "m", some 55, some 9000, 0, 0, 0, 0, "", "t0", "t0", none⟩],
         [("s1", 9000)], []⟩ "s1" 9000 "boom" "t1").sessions "s1").map
      (fun r => (r.status, r.error_message, r.closed_at)) =
      some ("error", "boom", some "t1") := by
  have h := process_exit_error_paths
    ⟨[9000],
     [⟨"s1", "P", "", "n", "active", "m", some 55, some 9000, 0, 0, 0, 0, "", "t0", "t0", none⟩],
     [("s1", 9000)], []⟩ "s1" 9000 "boom" "t1"
    ⟨"s1", "P", "", "n", "active", "m", some 55, some 9000, 0, 0, 0, 0, "", "t0", "t0", none⟩
    rfl rfl
  have h2 := (h.1 rfl).1
  simpa using h2

/-! ### NDJSON framing: chunk insensitivity (C8, stage 1) -/

theorem splitNl_ne_nil (s : List Char) : splitNl s ≠ [] := by
  induction s with
  | nil => simp [splitNl]
  | cons c r ih =>
    unfold splitNl
    split
    · simp
    · cases h : splitNl r <;> simp

theorem noNl_splitNl_getLastD (s : List Char) :
    '\n' ∉ (splitNl s).getLastD [] := by
  induction s with
  | nil => simp [splitNl]
  | cons c r ih =>
    cases h : splitNl r with
    | nil => exact absurd h (splitNl_ne_nil r)
    | cons l ls =>
      rw [h] at ih
      by_cases hc : c = '\n'
      · subst hc
        show '\n' ∉ (splitNl ('\n' :: r)).getLastD []
        unfold splitNl
        rw [if_pos rfl, h, List.getLastD_cons]
        exact ih
      · show '\n' ∉ (splitNl (c :: r)).getLastD []
        unfold splitNl
        rw [if_neg hc, h]
        cases ls with
        | nil =>
          simp only [show ∀ x : List Char, [x].getLastD [] = x from fun x => rfl] at ih ⊢
          intro hm
          rcases List.mem_cons.mp hm with h1 | h1
          · exact hc h1.symm
          · exact ih h1
        | cons l2 ls2 =>
          simp only [List.getLastD_cons] at ih ⊢
          exact ih

theorem splitNl_of_noNl {l : List Char} (h : '\n' ∉ l) : splitNl l = [l] := by
  induction l with
  | nil => rfl
  | cons c r ih =>
    have hc : ¬ c = '\n' := fun he => h (he ▸ List.mem_cons_self c r)
    have hr : '\n' ∉ r := fun hm => h (List.mem_cons_of_mem c hm)
    unfold splitNl
    rw [if_neg hc, ih hr]

theorem getLastD_append_cons (u t : List (List Char)) (y d : List Char) :
    (u ++ y :: t).getLastD d = (y :: t).getLastD d := by
  rw [List.getLastD_eq_getLast?, List.getLastD_eq_getLast?,
    List.getLast?_append_of_ne_nil _ (by simp)]

theorem dropLast_append_cons (u t : List (List Char)) (y : List Char) :
    (u ++ y :: t).dropLast = u ++ (y :: t).dropLast := by
  induction u with
  | nil => rfl
  | cons x xs ih =>
    rw [List.cons_append]
    rw [List.dropLast_cons_of_ne_nil (by simp), ih, List.cons_append]

theorem splitNl_append (a b : List Char) {y : List Char} {t : List (List Char)}
    (hb : splitNl b = y :: t) :
    splitNl (a ++ b) = (splitNl a).dropLast ++ ((splitNl a).getLastD [] ++ y) :: t := by
  induction a with
  | nil => simpa using hb
  | cons c r ih =>
    cases h : splitNl r with
    | nil => exact absurd h (splitNl_ne_nil r)
    | cons l ls =>
      rw [h] at ih
      by_cases hc : c = '\n'
      · subst hc
        show splitNl ('\n' :: (r ++ b)) = _
        unfold splitNl
        rw [if_pos rfl, if_pos rfl, ih, h]
        conv_rhs => rw [List.dropLast_cons_of_ne_nil (List.cons_ne_nil l ls),
          List.getLastD_cons]
        simp
      · show splitNl (c :: (r ++ b)) = _
        unfold splitNl
        rw [if_neg hc, if_neg hc, ih, h]
        cases ls with
        | nil => simp
        | cons l2 ls2 =>
          simp [List.dropLast_cons_of_ne_nil, List.getLastD_cons]

theorem ndjsonFeed_def (buf : List Char) (out : List Json) (chunk : List Char) :
    ndjsonFeed ⟨buf, out⟩ chunk =
      ⟨(splitNl (buf ++ chunk)).getLastD [],
        out ++ (splitNl (buf ++ chunk)).dropLast.filterMap processLine⟩ := rfl

theorem ndjsonFeed_append (st : NdjsonState) (a b : List Char) :
    ndjsonFeed (ndjsonFeed st a) b = ndjsonFeed st (a ++ b) := by
  obtain ⟨buf, out⟩ := st
  cases hys : splitNl b with
  | nil => exact absurd hys (splitNl_ne_nil b)
  | cons y t =>
    have hx : '\n' ∉ (splitNl (buf ++ a)).getLastD [] := noNl_splitNl_getLastD _
    rw [ndjsonFeed_def, ndjsonFeed_def, ndjsonFeed_def]
    rw [splitNl_append ((splitNl (buf ++ a)).getLastD []) b hys, splitNl_of_noNl hx]
    rw [← List.append_assoc buf a b, splitNl_append (buf ++ a) b hys]
    rw [getLastD_append_cons, dropLast_append_cons, List.filterMap_append]
    simp
    rw [Option.or_of_isSome (List.getLast?_isSome.mpr (by simp))]

theorem ndjsonFeedAll_eq_flatten {st : NdjsonState} (hb : '\n' ∉ st.buffer)
    (chunks : List (List Char)) :
    ndjsonFeedAll st chunks = ndjsonFeed st chunks.flatten := by
  induction chunks generalizing st with
  | nil =>
    obtain ⟨buf, out⟩ := st
    unfold ndjsonFeedAll
    rw [List.foldl_nil, List.flatten_nil, ndjsonFeed_def, List.append_nil,
      splitNl_of_noNl hb]
    simp
  | cons c cs ih =>
    unfold ndjsonFeedAll at *
    simp only [List.foldl_cons, List.flatten_cons]
    rw [ih ?_, ndjsonFeed_append]
    obtain ⟨buf, out⟩ := st
    rw [ndjsonFeed_def]
    exact noNl_splitNl_getLastD (buf ++ c)

/-! ### Serializer shape lemmas (C8, stage 2) -/

theorem digitChar_isDigit {k : Nat} (hk : k < 10) : (digitChar k).isDigit = true := by
  interval_cases k <;> decide

theorem digitChar_toNat {k : Nat} (hk : k < 10) : (digitChar k).toNat = 48 + k := by
  interval_cases k <;> decide

theorem hexChar_ne_nl {k : Nat} (hk : k < 16) : hexChar k ≠ '\n' := by
  interval_cases k <;> decide

theorem digitsToNat_append_one (ds : List Char) (d : Char) :
    digitsToNat (ds ++ [d]) = 10 * digitsToNat ds + (d.toNat - 48) := by
  unfold digitsToNat
  rw [List.foldl_append]
  simp [Nat.mul_comm]

theorem natToCharsF_spec :
    ∀ fuel n, n < fuel →
      natToCharsF fuel n ≠ [] ∧ (∀ c ∈ natToCharsF fuel n, c.isDigit = true) ∧
        digitsToNat (natToCharsF fuel n) = n := by
  intro fuel
  induction fuel with
  | zero => intro n hn; omega
  | succ fuel ih =>
    intro n hn
    unfold natToCharsF
    by_cases h10 : n < 10
    · rw [if_pos h10]
      refine ⟨by simp, ?_, ?_⟩
      · intro c hc
        rw [List.mem_singleton] at hc
        subst hc
        exact digitChar_isDigit h10
      · unfold digitsToNat
        simp [digitChar_toNat h10]
    · rw [if_neg h10]
      have hdiv : n / 10 < fuel := by
        have := Nat.div_lt_self (by omega : 0 < n) (by omega : 1 < 10)
        omega
      obtain ⟨hne, hdig, hval⟩ := ih (n / 10) hdiv
      refine ⟨by simp, ?_, ?_⟩
      · intro c hc
        rcases List.mem_append.mp hc with h1 | h1
        · exact hdig c h1
        · rw [List.mem_singleton] at h1
          subst h1
          exact digitChar_isDigit (Nat.mod_lt n (by omega))
      · rw [digitsToNat_append_one, hval, digitChar_toNat (Nat.mod_lt n (by omega))]
        omega

theorem natToChars_spec (n : Nat) :
    natToChars n ≠ [] ∧ (∀ c ∈ natToChars n, c.isDigit = true) ∧
      digitsToNat (natToChars n) = n :=
  natToCharsF_spec (n + 1) n (Nat.lt_succ_self n)

theorem isDigit_excl {c : Char} (h : c.isDigit = true) :
    c ≠ 'n' ∧ c ≠ 't' ∧ c ≠ 'f' ∧ c ≠ '"' ∧ c ≠ '[' ∧ c ≠ '{' ∧ c ≠ '-' ∧
      c ≠ ']' ∧ c ≠ '}' ∧ c ≠ ',' ∧ c ≠ ':' ∧ c ≠ '\n' ∧ jsWhitespace c = false := by
  refine ⟨?_, ?_, ?_, ?_, ?_, ?_, ?_, ?_, ?_, ?_, ?_, ?_, ?_⟩ <;>
    first
    | (intro he; subst he; exact absurd h (by decide))
    | (unfold jsWhitespace
       simp only [Bool.or_eq_false_iff, decide_eq_false_iff_not]
       and_intros <;> (intro he; subst he; exact absurd h (by decide)))

theorem escChar_no_nl (c : Char) : '\n' ∉ escChar c := by
  unfold escChar
  split_ifs with h1 h2 h3 h4 h5 h6 h7 h8
  · decide
  · decide
  · decide
  · decide
  · decide
  · decide
  · decide
  · intro hm
    have hd1 : c.toNat / 16 < 16 := by omega
    have hd2 : c.toNat % 16 < 16 := by omega
    simp only [List.mem_cons, List.not_mem_nil, or_false] at hm
    rcases hm with h | h | h | h | h | h
    · exact absurd h (by decide)
    · exact absurd h (by decide)
    · exact absurd h (by decide)
    · exact absurd h (by decide)
    · exact (hexChar_ne_nl hd1) h.symm
    · exact (hexChar_ne_nl hd2) h.symm
  · intro hm
    simp only [List.mem_cons, List.not_mem_nil, or_false] at hm
    subst hm
    exact h8 (by decide)

theorem escChars_no_nl (s : List Char) : '\n' ∉ escChars s := by
  induction s with
  | nil => simp [escChars]
  | cons c r ih =>
    unfold escChars
    intro hm
    rcases List.mem_append.mp hm with h | h
    · exact escChar_no_nl c h
    · exact ih h

theorem mem_intToChars {c : Char} {n : Int} (h : c ∈ intToChars n) :
    c = '-' ∨ c.isDigit = true := by
  unfold intToChars at h
  split at h
  · rcases List.mem_cons.mp h with h1 | h1
    · exact Or.inl h1
    · exact Or.inr ((natToChars_spec n.natAbs).2.1 c h1)
  · exact Or.inr ((natToChars_spec n.natAbs).2.1 c h)

theorem noNl_strItems {xs : List Json} (hx : ∀ x ∈ xs, '\n' ∉ jsonStringify x) :
    '\n' ∉ jsonStringify.strItems xs := by
  induction xs with
  | nil => simp [jsonStringify.strItems]
  | cons x xs ih =>
    intro hm
    cases xs with
    | nil =>
      simp only [jsonStringify.strItems] at hm
      exact hx x (List.mem_singleton_self x) hm
    | cons y ys =>
      simp only [jsonStringify.strItems] at hm
      rcases List.mem_append.mp hm with h | h
      · exact hx x (List.mem_cons_self x (y :: ys)) h
      · rcases List.mem_cons.mp h with h2 | h2
        · exact absurd h2 (by decide)
        · exact ih (fun z hz => hx z (List.mem_cons_of_mem x hz)) h2

theorem noNl_strFields {fs : List (String × Json)}
    (hf : ∀ kv ∈ fs, '\n' ∉ jsonStringify kv.2) :
    '\n' ∉ jsonStringify.strFields fs := by
  induction fs with
  | nil => simp [jsonStringify.strFields]
  | cons kv fs ih =>
    obtain ⟨k, v⟩ := kv
    intro hm
    cases fs with
    | nil =>
      simp only [jsonStringify.strFields] at hm
      rcases List.mem_cons.mp hm with h | h
      · exact absurd h (by decide)
      · rcases List.mem_append.mp h with h2 | h2
        · exact escChars_no_nl k.data h2
        · rcases List.mem_cons.mp h2 with h3 | h3
          · exact absurd h3 (by decide)
          · rcases List.mem_cons.mp h3 with h4 | h4
            · exact absurd h4 (by decide)
            · exact hf (k, v) (List.mem_singleton_self _) h4
    | cons kv2 fs2 =>
      simp only [jsonStringify.strFields] at hm
      rcases List.mem_append.mp hm with h | h
      · rcases List.mem_cons.mp h with h2 | h2
        · exact absurd h2 (by decide)
        · rcases List.mem_append.mp h2 with h3 | h3
          · exact escChars_no_nl k.data h3
          · rcases List.mem_cons.mp h3 with h4 | h4
            · exact absurd h4 (by decide)
            · rcases List.mem_cons.mp h4 with h5 | h5
              · exact absurd h5 (by decide)
              · exact hf (k, v) (List.mem_cons_self _ _) h5
      · rcases List.mem_cons.mp h with h2 | h2
        · exact absurd h2 (by decide)
        · exact ih (fun z hz => hf z (List.mem_cons_of_mem _ hz)) h2

theorem noNl_stringify_aux :
    ∀ n (v : Json), sizeOf v ≤ n → '\n' ∉ jsonStringify v := by
  intro n
  induction n using Nat.strong_induction_on with
  | _ n ih =>
    intro v hv
    cases v with
    | null => decide
    | bool b => cases b <;> decide
    | num m =>
      intro hm
      rcases mem_intToChars hm with h | h
      · exact absurd h (by decide)
      · exact absurd rfl (isDigit_excl h).2.2.2.2.2.2.2.2.2.2.2.1
    | str s =>
      intro hm
      simp only [jsonStringify] at hm
      rcases List.mem_cons.mp hm with h | h
      · exact absurd h (by decide)
      · rcases List.mem_append.mp h with h2 | h2
        · exact escChars_no_nl s.data h2
        · exact absurd h2 (by decide)
    | arr xs =>
      intro hm
      simp only [jsonStringify] at hm
      rcases List.mem_cons.mp hm with h | h
      · exact absurd h (by decide)
      · rcases List.mem_append.mp h with h2 | h2
        · refine noNl_strItems (fun x hx => ?_) h2
          have hs : sizeOf x < sizeOf (Json.arr xs) := by
            have h1 := List.sizeOf_lt_of_mem hx
            simp only [Json.arr.sizeOf_spec]
            omega
          exact ih (sizeOf x) (by omega) x le_rfl
        · exact absurd h2 (by decide)
    | obj fs =>
      intro hm
      simp only [jsonStringify] at hm
      rcases List.mem_cons.mp hm with h | h
      · exact absurd h (by decide)
      · rcases List.mem_append.mp h with h2 | h2
        · refine noNl_strFields (fun kv hkv => ?_) h2
          have hs : sizeOf kv.2 < sizeOf (Json.obj fs) := by
            have h1 := List.sizeOf_lt_of_mem hkv
            obtain ⟨k2, v2⟩ := kv
            simp only [Json.obj.sizeOf_spec, Prod.mk.sizeOf_spec] at *
            omega
          exact ih (sizeOf kv.2) (by omega) kv.2 le_rfl
        · exact absurd h2 (by decide)

theorem noNl_stringify (v : Json) : '\n' ∉ jsonStringify v :=
  noNl_stringify_aux (sizeOf v) v le_rfl

theorem stringify_shape (v : Json) :
    ∃ c t2, jsonStringify v = c :: t2 ∧
      (c = 'n' ∨ c = 't' ∨ c = 'f' ∨ c = '"' ∨ c = '[' ∨ c = '{' ∨ c = '-' ∨
        c.isDigit = true) := by
  cases v with
  | null => exact ⟨'n', ['u', 'l', 'l'], rfl, Or.inl rfl⟩
  | bool b =>
    cases b
    · exact ⟨'f', ['a', 'l', 's', 'e'], rfl, Or.inr (Or.inr (Or.inl rfl))⟩
    · exact ⟨'t', ['r', 'u', 'e'], rfl, Or.inr (Or.inl rfl)⟩
  | num m =>
    show ∃ c t2, intToChars m = c :: t2 ∧ _
    unfold intToChars
    by_cases hm : m < 0
    · rw [if_pos hm]
      exact ⟨'-', natToChars m.natAbs, rfl,
        Or.inr (Or.inr (Or.inr (Or.inr (Or.inr (Or.inr (Or.inl rfl))))))⟩
    · rw [if_neg hm]
      obtain ⟨hne, hdig, -⟩ := natToChars_spec m.natAbs
      obtain ⟨c, t, hct⟩ := List.exists_cons_of_ne_nil hne
      rw [hct]
      exact ⟨c, t, rfl,
        Or.inr (Or.inr (Or.inr (Or.inr (Or.inr (Or.inr (Or.inr
          (hdig c (hct ▸ List.mem_cons_self c t))))))))⟩
  | str s => exact ⟨'"', _, rfl, Or.inr (Or.inr (Or.inr (Or.inl rfl)))⟩
  | arr xs => exact ⟨'[', _, rfl, Or.inr (Or.inr (Or.inr (Or.inr (Or.inl rfl))))⟩
  | obj fs =>
    exact ⟨'{', _, rfl, Or.inr (Or.inr (Or.inr (Or.inr (Or.inr (Or.inl rfl)))))⟩

theorem stringify_ne_nil (v : Json) : jsonStringify v ≠ [] := by
  obtain ⟨c, t, he, -⟩ := stringify_shape v
  rw [he]
  simp

theorem stringify_head_not_ws (v : Json) :
    ∀ c, (jsonStringify v).head? = some c → jsWhitespace c = false := by
  obtain ⟨c0, t0, he, hd⟩ := stringify_shape v
  intro c hc
  rw [he] at hc
  simp only [List.head?_cons, Option.some.injEq] at hc
  subst hc
  rcases hd with h | h | h | h | h | h | h | h
  · subst h; decide
  · subst h; decide
  · subst h; decide
  · subst h; decide
  · subst h; decide
  · subst h; decide
  · subst h; decide
  · exact (isDigit_excl h).2.2.2.2.2.2.2.2.2.2.2.2

theorem getLast_digits_not_ws {l : List Char} (hdig : ∀ c ∈ l, c.isDigit = true) :
    ∀ c, l.getLast? = some c → jsWhitespace c = false := by
  intro c hc
  have hm : c ∈ l := List.mem_of_mem_getLast? hc
  exact (isDigit_excl (hdig c hm)).2.2.2.2.2.2.2.2.2.2.2.2

theorem stringify_getLast_not_ws (v : Json) :
    ∀ c, (jsonStringify v).getLast? = some c → jsWhitespace c = false := by
  cases v with
  | null =>
    intro c hc
    rw [show (jsonStringify .null).getLast? = some 'l' from rfl] at hc
    cases hc
    decide
  | bool b =>
    cases b <;>
      · intro c hc
        first
        | rw [show (jsonStringify (.bool false)).getLast? = some 'e' from rfl] at hc
        | rw [show (jsonStringify (.bool true)).getLast? = some 'e' from rfl] at hc
        cases hc
        decide
  | num m =>
    show ∀ c, (intToChars m).getLast? = some c → _
    unfold intToChars
    obtain ⟨hne, hdig, -⟩ := natToChars_spec m.natAbs
    by_cases hm : m < 0
    · rw [if_pos hm]
      obtain ⟨c0, t0, hct⟩ := List.exists_cons_of_ne_nil hne
      rw [hct]
      intro c hc
      rw [List.getLast?_cons_cons] at hc
      refine getLast_digits_not_ws (fun d hd => hdig d ?_) c hc
      rw [hct]
      exact hd
    · rw [if_neg hm]
      exact getLast_digits_not_ws hdig
  | str s =>
    intro c hc
    have he : jsonStringify (.str s) = ('"' :: escChars s.data) ++ ['"'] := by
      simp [jsonStringify]
    rw [he, List.getLast?_concat] at hc
    cases hc
    decide
  | arr xs =>
    intro c hc
    have he : jsonStringify (.arr xs) = ('[' :: jsonStringify.strItems xs) ++ [']'] := by
      simp [jsonStringify]
    rw [he, List.getLast?_concat] at hc
    cases hc
    decide
  | obj fs =>
    intro c hc
    have he : jsonStringify (.obj fs) = ('{' :: jsonStringify.strFields fs) ++ ['}'] := by
      simp [jsonStringify]
    rw [he, List.getLast?_concat] at hc
    cases hc
    decide

theorem trimChars_eq_self {l : List Char}
    (h1 : ∀ c, l.head? = some c → jsWhitespace c = false)
    (h2 : ∀ c, l.getLast? = some c → jsWhitespace c = false) : trimChars l = l := by
  cases l with
  | nil => rfl
  | cons c t =>
    unfold trimChars
    rw [List.dropWhile_cons, if_neg (by simp [h1 c rfl])]
    cases hr : (c :: t).reverse with
    | nil => exact absurd hr (by simp)
    | cons d u =>
      have hd : (c :: t).getLast? = some d := by
        rw [← List.head?_reverse, hr]
        rfl
      rw [List.dropWhile_cons, if_neg (by simp [h2 d hd]), ← hr,
        List.reverse_reverse]

theorem trim_stringify (v : Json) : trimChars (jsonStringify v) = jsonStringify v :=
  trimChars_eq_self (stringify_head_not_ws v) (stringify_getLast_not_ws v)

theorem length_mem_strItems {x : Json} :
    ∀ {xs : List Json}, x ∈ xs →
      (jsonStringify x).length ≤ (jsonStringify.strItems xs).length := by
  intro xs
  induction xs with
  | nil => intro h; simp at h
  | cons y ys ih =>
    intro h
    cases ys with
    | nil =>
      rw [List.mem_singleton] at h
      subst h
      simp [jsonStringify.strItems]
    | cons z zs =>
      rcases List.mem_cons.mp h with h1 | h1
      · subst h1
        simp only [jsonStringify.strItems, List.length_append, List.length_cons]
        omega
      · have := ih h1
        simp only [jsonStringify.strItems, List.length_append, List.length_cons]
        omega

theorem count_le_strItems :
    ∀ {xs : List Json}, xs ≠ [] →
      xs.length ≤ (jsonStringify.strItems xs).length := by
  intro xs
  induction xs with
  | nil => intro h; simp at h
  | cons x ys ih =>
    intro h
    cases ys with
    | nil =>
      have h1 : 1 ≤ (jsonStringify x).length :=
        List.length_pos.mpr (stringify_ne_nil x)
      simpa [jsonStringify.strItems] using h1
    | cons z zs =>
      have h1 : 1 ≤ (jsonStringify x).length :=
        List.length_pos.mpr (stringify_ne_nil x)
      have h2 := ih (List.cons_ne_nil z zs)
      simp only [jsonStringify.strItems, List.length_append, List.length_cons] at *
      omega

theorem length_mem_strFields {k : String} {v : Json} :
    ∀ {fs : List (String × Json)}, (k, v) ∈ fs →
      (jsonStringify v).length ≤ (jsonStringify.strFields fs).length := by
  intro fs
  induction fs with
  | nil => intro h; simp at h
  | cons kv fs2 ih =>
    intro h
    obtain ⟨k2, v2⟩ := kv
    cases fs2 with
    | nil =>
      rw [List.mem_singleton] at h
      obtain ⟨h1, h2⟩ := Prod.mk.injEq .. ▸ h
      subst h2
      simp only [jsonStringify.strFields, List.length_cons, List.length_append]
      omega
    | cons kv3 fs3 =>
      rcases List.mem_cons.mp h with h1 | h1
      · obtain ⟨h2, h3⟩ := Prod.mk.injEq .. ▸ h1
        subst h3
        simp only [jsonStringify.strFields, List.length_cons, List.length_append]
        omega
      · have := ih h1
        simp only [jsonStringify.strFields, List.length_cons, List.length_append]
        omega

theorem count_le_strFields :
    ∀ {fs : List (String × Json)}, fs ≠ [] →
      fs.length ≤ (jsonStringify.strFields fs).length := by
  intro fs
  induction fs with
  | nil => intro h; simp at h
  | cons kv fs2 ih =>
    intro h
    obtain ⟨k2, v2⟩ := kv
    cases fs2 with
    | nil => simp [jsonStringify.strFields]
    | cons kv3 fs3 =>
      have h2 := ih (List.cons_ne_nil kv3 fs3)
      simp only [jsonStringify.strFields, List.length_cons, List.length_append] at *
      omega

/-! ### Parser round trip (C8, stage 3) -/

theorem hexVal_hexChar {k : Nat} (hk : k < 16) : hexVal (hexChar k) = some k := by
  interval_cases k <;> decide

theorem takeWhile_digits_append {ds rest : List Char} (h : ∀ c ∈ ds, c.isDigit = true)
    (hr : ∀ c, rest.head? = some c → c.isDigit = false) :
    (ds ++ rest).takeWhile Char.isDigit = ds ∧
      (ds ++ rest).dropWhile Char.isDigit = rest := by
  induction ds with
  | nil =>
    simp only [List.nil_append]
    cases rest with
    | nil => simp
    | cons c t =>
      have hc := hr c rfl
      constructor
      · rw [List.takeWhile_cons, hc]
        simp
      · rw [List.dropWhile_cons, hc]
        simp
  | cons d ds2 ih =>
    have hd := h d (List.mem_cons_self d ds2)
    have ih2 := ih (fun c hc => h c (List.mem_cons_of_mem d hc))
    constructor
    · rw [List.cons_append, List.takeWhile_cons, hd, if_pos rfl, ih2.1]
    · rw [List.cons_append, List.dropWhile_cons, hd, if_pos rfl, ih2.2]

theorem parseStringBody_esc :
    ∀ (s : List Char) (rest : List Char),
      parseStringBody (escChars s ++ ('"' :: rest)) = some (s, rest) := by
  intro s
  induction s with
  | nil =>
    intro rest
    show parseStringBody ('"' :: rest) = some ([], rest)
    unfold parseStringBody
    simp
  | cons c s2 ih =>
    intro rest
    rw [show escChars (c :: s2) = escChar c ++ escChars s2 from rfl, List.append_assoc]
    unfold escChar
    split_ifs with h1 h2 h3 h4 h5 h6 h7 h8
    · subst h1
      simp only [List.cons_append, List.nil_append]
      unfold parseStringBody
      simp [ih]
    · subst h2
      simp only [List.cons_append, List.nil_append]
      unfold parseStringBody
      simp [ih]
    · subst h3
      simp only [List.cons_append, List.nil_append]
      unfold parseStringBody
      simp [ih]
    · subst h4
      simp only [List.cons_append, List.nil_append]
      unfold parseStringBody
      simp [ih]
    · subst h5
      simp only [List.cons_append, List.nil_append]
      unfold parseStringBody
      simp [ih]
    · subst h6
      simp only [List.cons_append, List.nil_append]
      unfold parseStringBody
      simp [ih]
    · subst h7
      simp only [List.cons_append, List.nil_append]
      unfold parseStringBody
      simp [ih]
    · have hd1 : c.toNat / 16 < 16 := by omega
      have hd2 : c.toNat % 16 < 16 := by omega
      simp only [List.cons_append, List.nil_append]
      unfold parseStringBody
      simp only [reduceIte, show hexVal '0' = some 0 from rfl,
        hexVal_hexChar hd1, hexVal_hexChar hd2, ih]
      rw [show (0 : Nat) * 4096 + 0 * 256 + c.toNat / 16 * 16 + c.toNat % 16 =
        c.toNat from by omega, Char.ofNat_toNat]
      rfl
    · simp only [List.cons_append, List.nil_append]
      unfold parseStringBody
      rw [if_neg h1, if_neg h2, ih]
      rfl

theorem itemsLoop_strItems (pv : List Char → Option (Json × List Char)) :
    ∀ (xs : List Json) (k : Nat) (rest : List Char), xs ≠ [] → xs.length ≤ k →
      (∀ x ∈ xs, ∀ r2 : List Char,
        (∀ c, r2.head? = some c → c.isDigit = false) →
        pv (jsonStringify x ++ r2) = some (x, r2)) →
      itemsLoop pv k (jsonStringify.strItems xs ++ (']' :: rest)) = some (xs, rest) := by
  intro xs
  induction xs with
  | nil => intro k rest h; exact absurd rfl h
  | cons x xs2 ih =>
    intro k rest hne hk hpv
    obtain ⟨k2, rfl⟩ : ∃ m, k = m + 1 := ⟨k - 1, by simp at hk; omega⟩
    cases xs2 with
    | nil =>
      have h1 := hpv x (List.mem_singleton_self x) (']' :: rest)
        (fun c hc => by cases hc; decide)
      show itemsLoop pv (k2 + 1) (jsonStringify x ++ (']' :: rest)) = _
      unfold itemsLoop
      rw [h1]
      rfl
    | cons y ys =>
      have hstep : jsonStringify.strItems (x :: y :: ys) ++ (']' :: rest) =
          jsonStringify x ++
            (',' :: (jsonStringify.strItems (y :: ys) ++ (']' :: rest))) := by
        show (jsonStringify x ++ ',' :: jsonStringify.strItems (y :: ys)) ++
            (']' :: rest) = _
        simp [List.append_assoc]
      have h1 := hpv x (List.mem_cons_self x (y :: ys))
        (',' :: (jsonStringify.strItems (y :: ys) ++ (']' :: rest)))
        (fun c hc => by cases hc; decide)
      have hrec := ih k2 rest (List.cons_ne_nil y ys) (by simp at hk ⊢; omega)
        (fun z hz => hpv z (List.mem_cons_of_mem x hz))
      rw [hstep]
      unfold itemsLoop
      rw [h1]
      simp [hrec]

theorem fieldsLoop_strFields (pv : List Char → Option (Json × List Char)) :
    ∀ (fs : List (String × Json)) (k : Nat) (rest : List Char), fs ≠ [] →
      fs.length ≤ k →
      (∀ kv ∈ fs, ∀ r2 : List Char,
        (∀ c, r2.head? = some c → c.isDigit = false) →
        pv (jsonStringify kv.2 ++ r2) = some (kv.2, r2)) →
      fieldsLoop pv k (jsonStringify.strFields fs ++ ('}' :: rest)) = some (fs, rest) := by
  intro fs
  induction fs with
  | nil => intro k rest h; exact absurd rfl h
  | cons kv fs2 ih =>
    obtain ⟨k1, v1⟩ := kv
    intro k rest hne hk hpv
    obtain ⟨k2, rfl⟩ : ∃ m, k = m + 1 := ⟨k - 1, by simp at hk; omega⟩
    cases fs2 with
    | nil =>
      have hstep : jsonStringify.strFields [(k1, v1)] ++ ('}' :: rest) =
          '"' :: (escChars k1.data ++
            ('"' :: (':' :: (jsonStringify v1 ++ ('}' :: rest))))) := by
        show ('"' :: escChars k1.data ++ '"' :: ':' :: jsonStringify v1) ++
            ('}' :: rest) = _
        simp [List.append_assoc]
      have h1 := parseStringBody_esc k1.data
        (':' :: (jsonStringify v1 ++ ('}' :: rest)))
      have h2 := hpv (k1, v1) (List.mem_singleton_self _) ('}' :: rest)
        (fun c hc => by cases hc; decide)
      rw [hstep]
      unfold fieldsLoop
      simp only [h1, h2]
    | cons kv2 fs3 =>
      have hstep : jsonStringify.strFields ((k1, v1) :: kv2 :: fs3) ++ ('}' :: rest) =
          '"' :: (escChars k1.data ++
            ('"' :: (':' :: (jsonStringify v1 ++
              (',' :: (jsonStringify.strFields (kv2 :: fs3) ++ ('}' :: rest))))))) := by
        show (('"' :: escChars k1.data ++ '"' :: ':' :: jsonStringify v1) ++
            ',' :: jsonStringify.strFields (kv2 :: fs3)) ++ ('}' :: rest) = _
        simp [List.append_assoc]
      have h1 := parseStringBody_esc k1.data
        (':' :: (jsonStringify v1 ++
          (',' :: (jsonStringify.strFields (kv2 :: fs3) ++ ('}' :: rest)))))
      have h2 := hpv (k1, v1) (List.mem_cons_self _ _)
        (',' :: (jsonStringify.strFields (kv2 :: fs3) ++ ('}' :: rest)))
        (fun c hc => by cases hc; decide)
      have hrec := ih k2 rest (List.cons_ne_nil kv2 fs3) (by simp at hk ⊢; omega)
        (fun z hz => hpv z (List.mem_cons_of_mem _ hz))
      rw [hstep]
      unfold fieldsLoop
      simp only [h1, h2]
      simp [hrec]

theorem parseJsonVal_stringify :
    ∀ (fuel : Nat) (v : Json) (rest : List Char),
      (jsonStringify v).length < fuel →
      (∀ c, rest.head? = some c → c.isDigit = false) →
      parseJsonVal fuel (jsonStringify v ++ rest) = some (v, rest) := by
  intro fuel
  induction fuel with
  | zero => intro v rest h hr; exact absurd h (by omega)
  | succ fuel ih =>
    intro v rest hlen hrest
    cases v with
    | null => rfl
    | bool b => cases b <;> rfl
    | num m =>
      obtain ⟨hne, hdig, hval⟩ := natToChars_spec m.natAbs
      obtain ⟨c0, t0, hct⟩ := List.exists_cons_of_ne_nil hne
      rw [hct] at hdig hval
      have htw := takeWhile_digits_append hdig hrest
      have hd0 : c0.isDigit = true := hdig c0 (List.mem_cons_self _ _)
      have hex := isDigit_excl hd0
      by_cases hm : m < 0
      · have hs : jsonStringify (.num m) ++ rest =
            '-' :: ((c0 :: t0) ++ rest) := by
          show intToChars m ++ rest = _
          unfold intToChars
          rw [if_pos hm, hct]
          rfl
        rw [hs]
        unfold parseJsonVal
        simp only [reduceIte]
        rw [htw.1, htw.2]
        have hmv : -(digitsToNat (c0 :: t0) : Int) = m := by rw [hval]; omega
        simp only [hmv]
        rfl
      · have hs : jsonStringify (.num m) ++ rest = c0 :: (t0 ++ rest) := by
          show intToChars m ++ rest = _
          unfold intToChars
          rw [if_neg hm, hct]
          rfl
        rw [hs]
        unfold parseJsonVal
        simp only []
        rw [if_neg hex.1, if_neg hex.2.1, if_neg hex.2.2.1, if_neg hex.2.2.2.1,
          if_neg hex.2.2.2.2.1, if_neg hex.2.2.2.2.2.1, if_neg hex.2.2.2.2.2.2.1,
          if_pos hd0]
        have htw1 : (c0 :: (t0 ++ rest)).takeWhile Char.isDigit = c0 :: t0 := htw.1
        have htw2 : (c0 :: (t0 ++ rest)).dropWhile Char.isDigit = rest := htw.2
        rw [htw1, htw2]
        have hmv : (digitsToNat (c0 :: t0) : Int) = m := by rw [hval]; omega
        rw [hmv]
    | str s =>
      have hs : jsonStringify (.str s) ++ rest =
          '"' :: (escChars s.data ++ ('"' :: rest)) := by
        show ('"' :: escChars s.data ++ ['"']) ++ rest = _
        simp [List.append_assoc]
      have h1 := parseStringBody_esc s.data rest
      rw [hs]
      unfold parseJsonVal
      simp only [reduceIte, h1, Option.map_some]
      rfl
    | arr xs =>
      have hl : (jsonStringify (.arr xs)).length =
          (jsonStringify.strItems xs).length + 2 := by
        show ('[' :: jsonStringify.strItems xs ++ [']']).length = _
        simp
      have hs : jsonStringify (.arr xs) ++ rest =
          '[' :: (jsonStringify.strItems xs ++ (']' :: rest)) := by
        show ('[' :: jsonStringify.strItems xs ++ [']']) ++ rest = _
        simp [List.append_assoc]
      rw [hs]
      unfold parseJsonVal
      simp only [reduceIte]
      cases xs with
      | nil => rfl
      | cons y ys =>
        obtain ⟨c0, t0, hct, hd⟩ := stringify_shape y
        have hexZ : ∃ Z, jsonStringify.strItems (y :: ys) ++ (']' :: rest) =
            c0 :: Z := by
          cases ys with
          | nil =>
            refine ⟨t0 ++ (']' :: rest), ?_⟩
            show jsonStringify y ++ (']' :: rest) = _
            rw [hct]
            rfl
          | cons z zs =>
            refine ⟨t0 ++ (',' ::
              (jsonStringify.strItems (z :: zs) ++ (']' :: rest))), ?_⟩
            show (jsonStringify y ++ ',' :: jsonStringify.strItems (z :: zs)) ++
              (']' :: rest) = _
            rw [hct]
            simp [List.append_assoc]
        obtain ⟨Z, hZ⟩ := hexZ
        have hc0 : c0 ≠ ']' := by
          rcases hd with h | h | h | h | h | h | h | h
          · subst h; decide
          · subst h; decide
          · subst h; decide
          · subst h; decide
          · subst h; decide
          · subst h; decide
          · subst h; decide
          · exact (isDigit_excl h).2.2.2.2.2.2.2.1
        have hcond : ¬ (jsonStringify.strItems (y :: ys) ++
            (']' :: rest)).head? = some ']' := by
          rw [hZ]
          simp [hc0]
        rw [if_neg hcond]
        have hcnt := count_le_strItems (List.cons_ne_nil y ys)
        have hloop := itemsLoop_strItems (parseJsonVal fuel) (y :: ys) fuel rest
          (List.cons_ne_nil y ys) (by omega)
          (fun x hx r2 hr2 =>
            ih x r2 (by have := length_mem_strItems hx; omega) hr2)
        rw [hloop]
        rfl
    | obj fs =>
      have hl : (jsonStringify (.obj fs)).length =
          (jsonStringify.strFields fs).length + 2 := by
        show ('{' :: jsonStringify.strFields fs ++ ['}']).length = _
        simp
      have hs : jsonStringify (.obj fs) ++ rest =
          '{' :: (jsonStringify.strFields fs ++ ('}' :: rest)) := by
        show ('{' :: jsonStringify.strFields fs ++ ['}']) ++ rest = _
        simp [List.append_assoc]
      rw [hs]
      unfold parseJsonVal
      simp only [reduceIte]
      cases fs with
      | nil => rfl
      | cons kv fs2 =>
        obtain ⟨k1, v1⟩ := kv
        have hexZ : ∃ Z, jsonStringify.strFields ((k1, v1) :: fs2) ++
            ('}' :: rest) = '"' :: Z := by
          cases fs2 with
          | nil =>
            refine ⟨escChars k1.data ++
              ('"' :: ':' :: (jsonStringify v1 ++ ('}' :: rest))), ?_⟩
            show ('"' :: escChars k1.data ++ '"' :: ':' :: jsonStringify v1) ++
              ('}' :: rest) = _
            simp [List.append_assoc]
          | cons kv3 fs3 =>
            refine ⟨escChars k1.data ++ ('"' :: ':' :: (jsonStringify v1 ++
              (',' :: (jsonStringify.strFields (kv3 :: fs3) ++
                ('}' :: rest))))), ?_⟩
            show (('"' :: escChars k1.data ++ '"' :: ':' :: jsonStringify v1) ++
              ',' :: jsonStringify.strFields (kv3 :: fs3)) ++ ('}' :: rest) = _
            simp [List.append_assoc]
        obtain ⟨Z, hZ⟩ := hexZ
        have hcond : ¬ (jsonStringify.strFields ((k1, v1) :: fs2) ++
            ('}' :: rest)).head? = some '}' := by
          rw [hZ]
          simp
        rw [if_neg hcond]
        have hcnt := count_le_strFields (List.cons_ne_nil (k1, v1) fs2)
        have hloop := fieldsLoop_strFields (parseJsonVal fuel) ((k1, v1) :: fs2)
          fuel rest (List.cons_ne_nil (k1, v1) fs2) (by omega)
          (fun kv hkv r2 hr2 => by
            obtain ⟨k2, v2⟩ := kv
            exact ih v2 r2 (by have := length_mem_strFields hkv; omega) hr2)
        rw [hloop]
        rfl

theorem jsonParse_stringify (v : Json) : jsonParse (jsonStringify v) = some v := by
  have h := parseJsonVal_stringify ((jsonStringify v).length + 1) v []
    (by omega) (by intro c hc; simp at hc)
  rw [List.append_nil] at h
  unfold jsonParse
  rw [h]

theorem processLine_stringify (v : Json) :
    processLine (jsonStringify v) = some v := by
  show (if (trimChars (jsonStringify v)).isEmpty then none
    else jsonParse (trimChars (jsonStringify v))) = some v
  rw [trim_stringify]
  rw [if_neg (fun h => stringify_ne_nil v (List.isEmpty_iff.mp h))]
  exact jsonParse_stringify v

theorem splitNl_serialized (vs : List Json) :
    splitNl ((vs.map serializeNdjson).flatten) =
      vs.map jsonStringify ++ [[]] := by
  induction vs with
  | nil => rfl
  | cons v vs2 ih =>
    have hflat : ((v :: vs2).map serializeNdjson).flatten =
        jsonStringify v ++
          ('\n' :: ((vs2.map serializeNdjson).flatten)) := by
      show (jsonStringify v ++ ['\n']) ++ _ = _
      simp [List.append_assoc]
    have hb : splitNl ('\n' :: ((vs2.map serializeNdjson).flatten)) =
        [] :: splitNl ((vs2.map serializeNdjson).flatten) := rfl
    rw [hflat, splitNl_append (jsonStringify v) _ hb,
      splitNl_of_noNl (noNl_stringify v), ih]
    simp

theorem filterMap_processLine_map (vs : List Json) :
    (vs.map jsonStringify).filterMap processLine = vs := by
  induction vs with
  | nil => rfl
  | cons v vs2 ih =>
    simp only [List.map_cons, List.filterMap_cons, processLine_stringify v, ih]

theorem ndjsonFeed_serialized (vs : List Json) :
    ndjsonFeed ⟨[], []⟩ ((vs.map serializeNdjson).flatten) = ⟨[], vs⟩ := by
  rw [ndjsonFeed_def, List.nil_append, splitNl_serialized, getLastD_append_cons,
    dropLast_append_cons]
  simp only [show ([([] : List Char)]).getLastD [] = [] from rfl,
    List.dropLast_single, List.append_nil, List.nil_append,
    filterMap_processLine_map]

/-- C8.  Chunk-boundary insensitivity of NDJSON framing: for every finite
sequence of JSON values, serializing each value (its JSON text followed by
one newline), and feeding the concatenation to a fresh `NdjsonParser` split
into chunks at any positions whatsoever, makes the callback fire exactly
once per value, in the original order, with values equal to the originals,
leaving an empty buffer. -/
theorem ndjson_chunking (vs : List Json) (chunks : List (List Char))
    (h : chunks.flatten = (vs.map serializeNdjson).flatten) :
    ndjsonFeedAll ⟨[], []⟩ chunks = ⟨[], vs⟩ := by
  rw [ndjsonFeedAll_eq_flatten (by simp) chunks, h, ndjsonFeed_serialized]

/-- Witness for C8: the spec's S6 scenario — the two objects of
`\x7b"a":1\x7d\n\x7b"b":2\x7d\n` fed one character at a time come back as
exactly those two values, in order. -/
theorem ndjson_chunking_witness :
    ndjsonFeedAll ⟨[], []⟩
        ((([Json.obj [("a", Json.num 1)], Json.obj [("b", Json.num 2)]].map
          serializeNdjson).flatten).map (fun c => [c])) =
      ⟨[], [Json.obj [("a", Json.num 1)], Json.obj [("b", Json.num 2)]]⟩ :=
  ndjson_chunking [Json.obj [("a", Json.num 1)], Json.obj [("b", Json.num 2)]]
    _ (by rfl)

end Conduit